import Mathlib

/-!
# diffmatchpatch/stringutil.go

A shallow embedding of the string and token utilities of the Go package
`diffmatchpatch` (file `stringutil.go`), followed by theorems about them.

Conventions of the embedding

* A Go `string` is the list of its bytes, each byte a natural number below 256.
* A Go `int` is an `Int`; every `int` the functions compute is bounded by the
  length of one of their arguments, so no 64-bit wrap-around can occur.
* A `DiffChar` is an unsigned 32-bit token: a natural number, with every
  shift reduced modulo `2 ^ 32` and every conversion to `byte` reduced modulo
  `2 ^ 8`.
* A run-time panic (slice or index out of range) is the value `none`; a
  function that slices or indexes therefore returns an `Option`.
* Loops carry a fuel argument that bounds the number of iterations; running
  out of fuel is `none` as well, and the theorems show it never happens.
-/

namespace DiffMatchPatch

/-! ## Go primitives -/

/-- Modelled from the spec: the declaration of the type DiffChar is not part of
`stringutil.go`; section 3 of the specification fixes a Token as an unsigned
integer of 32 bits. A token is a natural number, `isDiffChar` says it fits. -/
abbrev DiffChar := Nat

/-- The values a `DiffChar` variable can hold. -/
def isDiffChar (c : DiffChar) : Prop := c < 2 ^ 32

instance (c : DiffChar) : Decidable (isDiffChar c) := by
  unfold isDiffChar; infer_instance

/-- The values a `byte` can hold; a Go string is a list of such values. -/
def isByte (b : Nat) : Prop := b < 256

instance (b : Nat) : Decidable (isByte b) := by
  unfold isByte; infer_instance

/-- The conversion `byte(x)` of an unsigned value. -/
def toByte (x : Nat) : Nat := x % 256

/-- The conversion `DiffChar(x)` of an unsigned value, and the reduction every
32-bit operation performs. -/
def toDiffChar (x : Nat) : DiffChar := x % 2 ^ 32

/-- The slice expression `xs[lo:hi]`; `none` is the run-time panic Go raises
unless `0 ≤ lo ≤ hi ≤ len(xs)`. -/
def goSlice {α : Type} (xs : List α) (lo hi : Int) : Option (List α) :=
  if 0 ≤ lo ∧ lo ≤ hi ∧ hi ≤ (xs.length : Int) then
    some ((xs.take hi.toNat).drop lo.toNat)
  else none

/-- The slice expression `xs[lo:]`. -/
def goSliceFrom {α : Type} (xs : List α) (lo : Int) : Option (List α) :=
  goSlice xs lo xs.length

/-- The slice expression `xs[:hi]`. -/
def goSliceTo {α : Type} (xs : List α) (hi : Int) : Option (List α) :=
  goSlice xs 0 hi

/-- The index expression `xs[i]`; `none` is the run-time panic. -/
def goIndex {α : Type} (xs : List α) (i : Int) : Option α :=
  if 0 ≤ i then xs[i.toNat]? else none

/-- The assignment `xs[i] = v`; `none` is the run-time panic. -/
def goSet {α : Type} (xs : List α) (i : Int) (v : α) : Option (List α) :=
  if 0 ≤ i ∧ i < (xs.length : Int) then some (xs.set i.toNat v) else none

/-! ## Go standard library: `strings.Index`, `strings.LastIndex` -/

/-- The scan of `strings.Index`: `k` is the offset of the first byte of the
remaining text `s`. -/
def stringsIndexFrom (substr : List Nat) : List Nat → Nat → Int
  | [], k => if substr.isPrefixOf [] then (k : Int) else -1
  | c :: cs, k =>
    if substr.isPrefixOf (c :: cs) then (k : Int) else stringsIndexFrom substr cs (k + 1)

/-- Go's `strings.Index(s, substr)`: the index of the first instance of `substr`
in `s`, or `-1` if `substr` is not present in `s`. -/
def stringsIndex (s substr : List Nat) : Int := stringsIndexFrom substr s 0

/-- The scan of `strings.LastIndex`: the candidate offsets `n - 1, n - 2, …, 0`
are tried from the right. -/
def stringsLastIndexLoop (s substr : List Nat) : Nat → Int
  | 0 => -1
  | n + 1 =>
    if substr.isPrefixOf (s.drop n) then (n : Int) else stringsLastIndexLoop s substr n

/-- Go's `strings.LastIndex(s, substr)`: the index of the last instance of
`substr` in `s`, or `-1` if `substr` is not present in `s`. -/
def stringsLastIndex (s substr : List Nat) : Int :=
  stringsLastIndexLoop s substr (s.length + 1)

/-! ## Go standard library: package `unicode/utf8` -/

/-- The constant `utf8.RuneError`, U+FFFD. -/
def runeError : Int := 0xFFFD

/-- The table `first` of `unicode/utf8`: information about the first byte of
a UTF-8 sequence (`0xF0` ASCII, `0xF1` invalid, otherwise the accept range in
the high nibble and the size in the low one). -/
def utf8First (b : Nat) : Nat :=
  if b < 0x80 then 0xF0
  else if b < 0xC2 then 0xF1
  else if b < 0xE0 then 0x02
  else if b = 0xE0 then 0x13
  else if b < 0xED then 0x03
  else if b = 0xED then 0x23
  else if b < 0xF0 then 0x03
  else if b = 0xF0 then 0x34
  else if b < 0xF4 then 0x04
  else if b = 0xF4 then 0x44
  else 0xF1

/-- The table `acceptRanges` of `unicode/utf8`: the range of valid values of
the second byte of a sequence. -/
def acceptRanges (k : Nat) : Nat × Nat :=
  match k with
  | 0 => (0x80, 0xBF)
  | 1 => (0xA0, 0xBF)
  | 2 => (0x80, 0x9F)
  | 3 => (0x90, 0xBF)
  | 4 => (0x80, 0x8F)
  | _ => (0, 0)

/-- Go's `utf8.DecodeRuneInString(s)`: the first rune of `s` and its width in
bytes; `(RuneError, 0)` for the empty string and `(RuneError, 1)` for an
invalid encoding. -/
def decodeRuneInString (s : List Nat) : Int × Int :=
  match s with
  | [] => (runeError, 0)
  | s0 :: rest =>
    let x := utf8First s0
    if 0xF0 ≤ x then
      (if x % 2 = 1 then runeError else (s0 : Int), 1)
    else
      let sz := x &&& 7
      let accept := acceptRanges (x >>> 4)
      if s.length < sz then (runeError, 1)
      else
        match rest with
        | [] => (runeError, 1)
        | s1 :: rest1 =>
          if s1 < accept.1 ∨ accept.2 < s1 then (runeError, 1)
          else if sz ≤ 2 then
            ((((s0 &&& 0x1F) <<< 6 ||| (s1 &&& 0x3F) : Nat) : Int), 2)
          else
            match rest1 with
            | [] => (runeError, 1)
            | s2 :: rest2 =>
              if s2 < 0x80 ∨ 0xBF < s2 then (runeError, 1)
              else if sz ≤ 3 then
                ((((s0 &&& 0x0F) <<< 12 ||| (s1 &&& 0x3F) <<< 6 ||| (s2 &&& 0x3F) : Nat) : Int), 3)
              else
                match rest2 with
                | [] => (runeError, 1)
                | s3 :: _ =>
                  if s3 < 0x80 ∨ 0xBF < s3 then (runeError, 1)
                  else
                    ((((s0 &&& 0x07) <<< 18 ||| (s1 &&& 0x3F) <<< 12 ||| (s2 &&& 0x3F) <<< 6
                      ||| (s3 &&& 0x3F) : Nat) : Int), 4)

/-- The UTF-8 encoding of a rune that is a Unicode scalar value (the valid
branches of `utf8.AppendRune`). -/
def encodeScalar (r : Nat) : List Nat :=
  if r ≤ 0x7F then [toByte r]
  else if r ≤ 0x7FF then [0xC0 ||| toByte (r >>> 6), 0x80 ||| (toByte r &&& 0x3F)]
  else if r ≤ 0xFFFF then
    [0xE0 ||| toByte (r >>> 12), 0x80 ||| (toByte (r >>> 6) &&& 0x3F), 0x80 ||| (toByte r &&& 0x3F)]
  else
    [0xF0 ||| toByte (r >>> 18), 0x80 ||| (toByte (r >>> 12) &&& 0x3F),
     0x80 ||| (toByte (r >>> 6) &&& 0x3F), 0x80 ||| (toByte r &&& 0x3F)]

/-- A rune is valid when it is a Unicode scalar value: at most U+10FFFF and
not a surrogate. -/
def validRune (r : Int) : Prop := 0 ≤ r ∧ r ≤ 0x10FFFF ∧ ¬ (0xD800 ≤ r ∧ r ≤ 0xDFFF)

instance (r : Int) : Decidable (validRune r) := by
  unfold validRune; infer_instance

/-- Go's `utf8.AppendRune(nil, r)`, which is also what the conversion
`string(runes)` writes for each rune: an invalid rune is written as U+FFFD. -/
def encodeRune (r : Int) : List Nat :=
  if validRune r then encodeScalar r.toNat else encodeScalar 0xFFFD

/-- The conversion `[]rune(s)`: the runes `utf8.DecodeRuneInString` reads off
`s` one after the other. -/
def stringToRunesLoop : Nat → List Nat → List Int
  | 0, _ => []
  | fuel + 1, s =>
    match s with
    | [] => []
    | _ :: _ =>
      let d := decodeRuneInString s
      d.1 :: stringToRunesLoop fuel (s.drop d.2.toNat)

/-- The conversion `[]rune(s)`. -/
def stringToRunes (s : List Nat) : List Int := stringToRunesLoop s.length s

/-- The conversion `string(runes)`. -/
def runesToString (runes : List Int) : List Nat := runes.flatMap encodeRune

/-- The conversion `rune(c)` of a `DiffChar` (unsigned 32 bits to signed 32
bits). -/
def toRune (c : DiffChar) : Int :=
  if c % 2 ^ 32 < 2 ^ 31 then ((c % 2 ^ 32 : Nat) : Int) else ((c % 2 ^ 32 : Nat) : Int) - 2 ^ 32

/-- The conversion `DiffChar(r)` of a rune (signed 32 bits to unsigned 32
bits). -/
def runeToDiffChar (r : Int) : DiffChar := (r % 2 ^ 32).toNat

/-! ## `stringutil.go` -/

/-- Go: `func indexOf(str string, pattern string, i int) int`. -/
def indexOf (str pattern : List Nat) (i : Int) : Option Int :=
  if i > (str.length : Int) - 1 then some (-1)
  else if i ≤ 0 then some (stringsIndex str pattern)
  else do
    let tail ← goSliceFrom str i
    let ind := stringsIndex tail pattern
    if ind = -1 then some (-1) else some (ind + i)

/-- Go: `func lastIndexOf(str string, pattern string, i int) int`. -/
def lastIndexOf (str pattern : List Nat) (i : Int) : Option Int :=
  if i < 0 then some (-1)
  else if i ≥ (str.length : Int) then some (stringsLastIndex str pattern)
  else do
    let tail ← goSliceFrom str i
    let size := (decodeRuneInString tail).2
    let window ← goSliceTo str (i + size)
    some (stringsLastIndex window pattern)

/-- The `range` loop of `charsEqual`: `i` is the index of the head of the
remaining part of `c1`. -/
def charsEqualLoop (c2 : List DiffChar) : List DiffChar → Int → Option Bool
  | [], _ => some true
  | c :: rest, i => do
    let d ← goIndex c2 i
    if c ≠ d then some false else charsEqualLoop c2 rest (i + 1)

/-- Go: `func charsEqual(c1, c2 []DiffChar) bool`. -/
def charsEqual (c1 c2 : List DiffChar) : Option Bool :=
  if c1.length ≠ c2.length then some false
  else charsEqualLoop c2 c1 0

/-- The `for` loop of `charsIndex`, started at `i`. -/
def charsIndexLoop (c1 c2 : List DiffChar) (last : Int) : Nat → Int → Option Int
  | 0, _ => none
  | fuel + 1, i =>
    if i ≤ last then do
      let window ← goSlice c1 i (i + (c2.length : Int))
      let eq ← charsEqual window c2
      if eq then some i else charsIndexLoop c1 c2 last fuel (i + 1)
    else some (-1)

/-- Go: `func charsIndex(c1, c2 []DiffChar) int`. -/
def charsIndex (c1 c2 : List DiffChar) : Option Int :=
  charsIndexLoop c1 c2 ((c1.length : Int) - (c2.length : Int)) (c1.length + 2) 0

/-- Go: `func charsIndexOf(target, pattern []DiffChar, i int) int`. -/
def charsIndexOf (target pattern : List DiffChar) (i : Int) : Option Int :=
  if i > (target.length : Int) - 1 then some (-1)
  else if i ≤ 0 then charsIndex target pattern
  else do
    let tail ← goSliceFrom target i
    let ind ← charsIndex tail pattern
    if ind = -1 then some (-1) else some (ind + i)

/-- The `range` loop of `runesToChars`: `chars[i] = DiffChar(r)`. -/
def runesToCharsLoop : List Int → Int → List DiffChar → Option (List DiffChar)
  | [], _, chars => some chars
  | r :: rest, i, chars => do
    let chars1 ← goSet chars i (runeToDiffChar r)
    runesToCharsLoop rest (i + 1) chars1

/-- Go: `func runesToChars(runes []rune) []DiffChar`. -/
def runesToChars (runes : List Int) : Option (List DiffChar) :=
  runesToCharsLoop runes 0 (List.replicate runes.length 0)

/-- The `range` loop of `charsToRunes`: `runes[i] = rune(c)`. -/
def charsToRunesLoop : List DiffChar → Int → List Int → Option (List Int)
  | [], _, runes => some runes
  | c :: rest, i, runes => do
    let runes1 ← goSet runes i (toRune c)
    charsToRunesLoop rest (i + 1) runes1

/-- Go: `func charsToRunes(chars []DiffChar) []rune`. -/
def charsToRunes (chars : List DiffChar) : Option (List Int) :=
  charsToRunesLoop chars 0 (List.replicate chars.length 0)

/-- Go: `func encodeChar(c DiffChar) string`. -/
def encodeChar (c : DiffChar) : List Nat :=
  [toByte (c >>> 24 &&& 0xFF), toByte (c >>> 16 &&& 0xFF), toByte (c >>> 8 &&& 0xFF),
   toByte (c &&& 0xFF)]

/-- Go: `func decodeChar(s string) DiffChar`. -/
def decodeChar (s : List Nat) : Option DiffChar := do
  let b0 ← goIndex s 0
  let b1 ← goIndex s 1
  let b2 ← goIndex s 2
  let b3 ← goIndex s 3
  some (toDiffChar (toDiffChar b0 <<< 24) ||| toDiffChar (toDiffChar b1 <<< 16)
    ||| toDiffChar (toDiffChar b2 <<< 8) ||| toDiffChar b3)

/-- Go: `func charsToString(chars []DiffChar, encode bool) string`. -/
def charsToString (chars : List DiffChar) (encode : Bool) : Option (List Nat) :=
  if encode then
    some (chars.foldl (fun res c => res ++ encodeChar c) [])
  else do
    let runes ← charsToRunes chars
    some (runesToString runes)

/-- The `for` loop of the decoding branch of `stringToChars`, started at `i`. -/
def stringToCharsLoop (s : List Nat) : Nat → Int → List DiffChar → Option (List DiffChar)
  | 0, _, _ => none
  | fuel + 1, i, chars =>
    if i < (s.length : Int) / 4 then do
      let group ← goSlice s (i * 4) (i * 4 + 4)
      let c ← decodeChar group
      let chars1 ← goSet chars i c
      stringToCharsLoop s fuel (i + 1) chars1
    else some chars

/-- Go: `func stringToChars(s string, decode bool) []DiffChar`. -/
def stringToChars (s : List Nat) (decode : Bool) : Option (List DiffChar) :=
  if decode then
    stringToCharsLoop s (s.length / 4 + 1) 0 (List.replicate (s.length / 4) 0)
  else runesToChars (stringToRunes s)

/-- The bytes of an ASCII text, to write the examples of the specification. -/
def ascii (text : String) : List Nat := text.toList.map Char.toNat

/-! ## Go standard library: `strings.NewReplacer`, and the table `unescaper` -/

/-- The lookup of Go's generic replacer at one offset: the first pair of the
table, in argument order, whose old string is a prefix of the remaining text
`s`. -/
def replacerLookup : List (List Nat × List Nat) → List Nat → Option (List Nat × List Nat)
  | [], _ => none
  | (old, new) :: rest, s =>
    if old.isPrefixOf s then some (old, new) else replacerLookup rest s

/-- The scan of Go's `(*strings.Replacer).Replace` for a table whose old
strings are not empty: replacements are performed in the order they appear in
the text, without overlapping matches. At a match the new string is written
and the scan resumes after the old string (`skip` counts the bytes of the old
string still to pass over); otherwise the byte is copied. -/
def replacerScan (table : List (List Nat × List Nat)) : List Nat → Nat → List Nat
  | [], _ => []
  | _ :: cs, skip + 1 => replacerScan table cs skip
  | c :: cs, 0 =>
    match replacerLookup table (c :: cs) with
    | some (old, new) => new ++ replacerScan table cs (old.length - 1)
    | none => c :: replacerScan table cs 0

/-- Go: the arguments of `var unescaper = strings.NewReplacer(...)`, as pairs
(old string, new string), in argument order. -/
def unescaperTable : List (List Nat × List Nat) :=
  [(ascii "%21", ascii "!"), (ascii "%7E", ascii "~"), (ascii "%27", ascii "'"),
   (ascii "%28", ascii "("), (ascii "%29", ascii ")"), (ascii "%3B", ascii ";"),
   (ascii "%2F", ascii "/"), (ascii "%3F", ascii "?"), (ascii "%3A", ascii ":"),
   (ascii "%40", ascii "@"), (ascii "%26", ascii "&"), (ascii "%3D", ascii "="),
   (ascii "%2B", ascii "+"), (ascii "%24", ascii "$"), (ascii "%2C", ascii ","),
   (ascii "%23", ascii "#"), (ascii "%2A", ascii "*")]

/-- Go: `unescaper.Replace(s)`. -/
def unescaperReplace (s : List Nat) : List Nat := replacerScan unescaperTable s 0

/-! ## Vocabulary of the specification -/

/-- The big-endian representation of a token on four bytes, as the
specification writes it. -/
def bigEndian4 (c : DiffChar) : List Nat :=
  [c >>> 24 &&& 0xFF, c >>> 16 &&& 0xFF, c >>> 8 &&& 0xFF, c &&& 0xFF]

/-- The 4-byte group number `k` of a byte string: `s[4k : 4k+4]`. -/
def groupAt (s : List Nat) (k : Nat) : List Nat := (s.drop (4 * k)).take 4

/-- The big-endian value of the first four bytes of `w` (a missing byte counts
as zero), every byte widened to 32 bits and every shift reduced modulo
`2 ^ 32`. -/
def bigEndianValue (w : List Nat) : DiffChar :=
  toDiffChar (toDiffChar (w.getD 0 0) <<< 24) ||| toDiffChar (toDiffChar (w.getD 1 0) <<< 16)
    ||| toDiffChar (toDiffChar (w.getD 2 0) <<< 8) ||| toDiffChar (w.getD 3 0)

/-- A continuation byte of UTF-8, `0x80 … 0xBF`. -/
def isContinuation (b : Nat) : Prop := 0x80 ≤ b ∧ b ≤ 0xBF

instance (b : Nat) : Decidable (isContinuation b) := by
  unfold isContinuation; infer_instance

/-- The needle `p` occurs in `s` at offset `j`: `j + len(p) ≤ len(s)` and
`s[j : j+len(p)] = p`. -/
def OccursAt (s p : List Nat) (j : Nat) : Prop :=
  j + p.length ≤ s.length ∧ (s.drop j).take p.length = p

instance (s p : List Nat) (j : Nat) : Decidable (OccursAt s p j) := by
  unfold OccursAt; infer_instance

/-- The result of a forward search from offset `lo`: `r` is the least offset
`j ≥ lo` at which `p` occurs in `s`, and `-1` when there is none. -/
def IsFirstOccurrenceFrom (s p : List Nat) (lo : Nat) (r : Int) : Prop :=
  (r = -1 ∧ ∀ j, lo ≤ j → ¬ OccursAt s p j) ∨
  (∃ j : Nat, r = (j : Int) ∧ lo ≤ j ∧ OccursAt s p j ∧ ∀ k, lo ≤ k → k < j → ¬ OccursAt s p k)

/-- The result of a backward search: `r` is the greatest offset at which `p`
occurs in `s`, and `-1` when there is none. -/
def IsLastOccurrence (s p : List Nat) (r : Int) : Prop :=
  (r = -1 ∧ ∀ j, ¬ OccursAt s p j) ∨
  (∃ j : Nat, r = (j : Int) ∧ OccursAt s p j ∧ ∀ k, j < k → ¬ OccursAt s p k)

/-- The text `s` contains none of the keys of the escape table as a
substring. -/
def KeyFree (s : List Nat) : Prop := ∀ e ∈ unescaperTable, ¬ e.1 <:+: s

/-- A token is a valid Unicode scalar value: at most `0x10FFFF` and outside
`0xD800 … 0xDFFF`. -/
def validScalar (c : DiffChar) : Prop := c ≤ 0x10FFFF ∧ ¬ (0xD800 ≤ c ∧ c ≤ 0xDFFF)

instance (c : DiffChar) : Decidable (validScalar c) := by
  unfold validScalar; infer_instance

/-- A valid UTF-8 text: the concatenation of the encodings of its codepoints
`runes`, each of them a valid rune. -/
def IsUTF8Of (s : List Nat) (runes : List Int) : Prop :=
  (∀ r ∈ runes, validRune r) ∧ s = runesToString runes

/-- The byte offset, in the UTF-8 text of `runes`, of the first byte of the
codepoint number `k`. -/
def codepointStart (runes : List Int) (k : Nat) : Nat := (runesToString (runes.take k)).length

/-- The byte offset, in the UTF-8 text of `runes`, just past the codepoint
number `k`. -/
def codepointEnd (runes : List Int) (k : Nat) : Nat :=
  (runesToString (runes.take (k + 1))).length

/-- What the conversion `string(runes)` makes of a rune: a valid rune is
written as it is, any other as U+FFFD. -/
def sanitizeRune (r : Int) : Int := if validRune r then r else runeError

/-- The text `"héllo world"` in UTF-8; `é` (U+00E9) occupies the bytes 1 and
2. -/
def helloAccent : List Nat := [104, 195, 169, 108, 108, 111, 32, 119, 111, 114, 108, 100]

end DiffMatchPatch

namespace DiffMatchPatch

/-! ## Lemmas on the Go primitives -/

theorem goSlice_nat {α : Type} (xs : List α) (lo hi : Nat) (h1 : lo ≤ hi)
    (h2 : hi ≤ xs.length) :
    goSlice xs (lo : Int) (hi : Int) = some ((xs.drop lo).take (hi - lo)) := by
  have hc : (0 : Int) ≤ lo ∧ (lo : Int) ≤ hi ∧ (hi : Int) ≤ (xs.length : Int) := by omega
  simp only [goSlice, if_pos hc, Int.toNat_ofNat, List.drop_take]

theorem goSliceFrom_nat {α : Type} (xs : List α) (lo : Nat) (h : lo ≤ xs.length) :
    goSliceFrom xs (lo : Int) = some (xs.drop lo) := by
  unfold goSliceFrom
  rw [goSlice_nat xs lo xs.length h (le_refl _)]
  simp

theorem goSliceTo_nat {α : Type} (xs : List α) (hi : Nat) (h : hi ≤ xs.length) :
    goSliceTo xs (hi : Int) = some (xs.take hi) := by
  unfold goSliceTo
  have := goSlice_nat xs 0 hi (Nat.zero_le _) h
  simpa using this

theorem goIndex_nat {α : Type} (xs : List α) (i : Nat) : goIndex xs (i : Int) = xs[i]? := by
  simp [goIndex]

theorem goSet_nat {α : Type} (xs : List α) (i : Nat) (v : α) (h : i < xs.length) :
    goSet xs (i : Int) v = some (xs.set i v) := by
  have hc : (0 : Int) ≤ i ∧ (i : Int) < (xs.length : Int) := by omega
  simp only [goSet, if_pos hc, Int.toNat_ofNat]

theorem take_succ_set {α : Type} (xs : List α) (i : Nat) (v : α) (h : i < xs.length) :
    (xs.set i v).take (i + 1) = xs.take i ++ [v] := by
  induction xs generalizing i with
  | nil => simp at h
  | cons x rest ih =>
    cases i with
    | zero => simp
    | succ j =>
      have hj : j < rest.length := by simpa using h
      simp [List.set_cons_succ, List.take_succ_cons, ih j hj]

/-! ## The packed encoding -/

theorem foldl_append_flatMap {α β : Type} (f : α → List β) (l : List α) (acc : List β) :
    l.foldl (fun res c => res ++ f c) acc = acc ++ l.flatMap f := by
  induction l generalizing acc with
  | nil => simp
  | cons c cs ih => simp [ih, List.append_assoc]

theorem charsToString_encode (chars : List DiffChar) :
    charsToString chars true = some (chars.flatMap encodeChar) := by
  simp [charsToString, foldl_append_flatMap]

theorem length_encodeChar (c : DiffChar) : (encodeChar c).length = 4 := rfl

theorem length_flatMap_encodeChar (chars : List DiffChar) :
    (chars.flatMap encodeChar).length = 4 * chars.length := by
  induction chars with
  | nil => rfl
  | cons c cs ih => simp [List.flatMap_cons, ih, length_encodeChar]; omega

theorem encodeChar_eq_bigEndian4 (c : DiffChar) : encodeChar c = bigEndian4 c := by
  have h : ∀ x : Nat, toByte (x &&& 0xFF) = x &&& 0xFF := by
    intro x
    have : x &&& 0xFF < 2 ^ 8 := Nat.and_lt_two_pow x (by norm_num)
    unfold toByte; omega
  simp only [encodeChar, bigEndian4, h]

theorem decodeChar_eq (w : List Nat) (h : w.length = 4) :
    decodeChar w = some (bigEndianValue w) := by
  match w, h with
  | [b0, b1, b2, b3], _ => rfl

theorem length_groupAt (s : List Nat) (k : Nat) (h : k < s.length / 4) :
    (groupAt s k).length = 4 := by
  simp only [groupAt, List.length_take, List.length_drop]; omega

theorem goSlice_group (s : List Nat) (k : Nat) (h : k < s.length / 4) :
    goSlice s ((k : Int) * 4) ((k : Int) * 4 + 4) = some (groupAt s k) := by
  have h1 : ((k : Int) * 4) = ((4 * k : Nat) : Int) := by push_cast; ring
  have h2 : ((k : Int) * 4 + 4) = ((4 * k + 4 : Nat) : Int) := by push_cast; ring
  rw [h2, h1, goSlice_nat s (4 * k) (4 * k + 4) (by omega) (by omega)]
  simp [groupAt]

/-- The decoding loop, in closed form: started at `i` with `n - i` groups left
to decode, it keeps the first `i` tokens and decodes the groups `i, …, n - 1`,
provided the fuel covers the remaining iterations. -/
theorem stringToCharsLoop_eq (s : List Nat) (m : Nat) :
    ∀ (fuel i : Nat) (chars : List DiffChar), i + m = s.length / 4 →
      chars.length = s.length / 4 → m < fuel →
      stringToCharsLoop s fuel (i : Int) chars
        = some (chars.take i ++ (List.range' i m).map (fun k => bigEndianValue (groupAt s k))) := by
  induction m with
  | zero =>
    intro fuel i chars hi hlen hfuel
    obtain ⟨f, rfl⟩ : ∃ f, fuel = f + 1 := ⟨fuel - 1, by omega⟩
    have hc : ¬ ((i : Int) < (s.length : Int) / 4) := by omega
    simp only [stringToCharsLoop, if_neg hc]
    simp [List.take_of_length_le (by omega : chars.length ≤ i)]
  | succ m ih =>
    intro fuel i chars hi hlen hfuel
    obtain ⟨f, rfl⟩ : ∃ f, fuel = f + 1 := ⟨fuel - 1, by omega⟩
    have hc : (i : Int) < (s.length : Int) / 4 := by omega
    have hk : i < s.length / 4 := by omega
    simp only [stringToCharsLoop, if_pos hc, goSlice_group s i hk, Option.bind_eq_bind,
      Option.some_bind, decodeChar_eq _ (length_groupAt s i hk),
      goSet_nat chars i _ (by omega : i < chars.length)]
    have hnext : ((i : Int) + 1) = ((i + 1 : Nat) : Int) := by push_cast; ring
    rw [hnext, ih f (i + 1) _ (by omega) (by simpa using hlen) (by omega)]
    rw [take_succ_set chars i _ (by omega), List.range'_succ, List.map_cons]
    simp

theorem stringToChars_decode (s : List Nat) :
    stringToChars s true
      = some ((List.range (s.length / 4)).map (fun k => bigEndianValue (groupAt s k))) := by
  have h := stringToCharsLoop_eq s (s.length / 4) (s.length / 4 + 1) 0
    (List.replicate (s.length / 4) 0) (by omega) (by simp) (by omega)
  simp only [stringToChars, if_true]
  rw [show ((0 : Int)) = ((0 : Nat) : Int) from rfl, h]
  simp [List.range_eq_range']

theorem groupAt_flatMap_encodeChar (seq : List DiffChar) :
    ∀ k, k < seq.length → groupAt (seq.flatMap encodeChar) k = encodeChar (seq.getD k 0) := by
  induction seq with
  | nil => intro k hk; simp at hk
  | cons c cs ih =>
    intro k hk
    cases k with
    | zero =>
      simp only [groupAt, List.flatMap_cons, Nat.mul_zero, List.drop_zero, List.getD_cons_zero]
      exact List.take_left' (length_encodeChar c)
    | succ j =>
      have hj : j < cs.length := by simpa using hk
      have hd : (encodeChar c ++ cs.flatMap encodeChar).drop (4 * (j + 1))
          = (cs.flatMap encodeChar).drop (4 * j) := by
        rw [show 4 * (j + 1) = (encodeChar c).length + 4 * j by rw [length_encodeChar]; omega,
          List.drop_append]
      have := ih j hj
      simp only [groupAt] at this ⊢
      rw [List.flatMap_cons, hd, this, List.getD_cons_succ]

theorem bigEndian_or (c : Nat) :
    (2 ^ 24 * (c / 2 ^ 24)) ||| (2 ^ 16 * (c / 2 ^ 16 % 256)) ||| (2 ^ 8 * (c / 2 ^ 8 % 256))
      ||| (c % 256) = c := by
  have e1 : 2 ^ 24 * (c / 2 ^ 24) ||| 2 ^ 16 * (c / 2 ^ 16 % 256) = 2 ^ 16 * (c / 2 ^ 16) := by
    rw [← Nat.mul_add_lt_is_or (by omega)]; omega
  have e2 : 2 ^ 16 * (c / 2 ^ 16) ||| 2 ^ 8 * (c / 2 ^ 8 % 256) = 2 ^ 8 * (c / 2 ^ 8) := by
    rw [← Nat.mul_add_lt_is_or (by omega)]; omega
  have e3 : 2 ^ 8 * (c / 2 ^ 8) ||| c % 256 = c := by
    rw [← Nat.mul_add_lt_is_or (by omega)]; omega
  rw [e1, e2, e3]

theorem and_255 (x : Nat) : x &&& 0xFF = x % 256 := Nat.and_pow_two_sub_one_eq_mod x 8

theorem bigEndianValue_encodeChar (c : Nat) (h : c < 2 ^ 32) :
    bigEndianValue (encodeChar c) = c := by
  simp only [bigEndianValue, encodeChar, List.getD_cons_zero, List.getD_cons_succ, toDiffChar,
    toByte, Nat.shiftLeft_eq, Nat.shiftRight_eq_div_pow, and_255]
  have h0 : c / 2 ^ 24 % 256 % 256 % 2 ^ 32 * 2 ^ 24 % 2 ^ 32 = 2 ^ 24 * (c / 2 ^ 24) := by omega
  have h1 : c / 2 ^ 16 % 256 % 256 % 2 ^ 32 * 2 ^ 16 % 2 ^ 32 = 2 ^ 16 * (c / 2 ^ 16 % 256) := by
    omega
  have h2 : c / 2 ^ 8 % 256 % 256 % 2 ^ 32 * 2 ^ 8 % 2 ^ 32 = 2 ^ 8 * (c / 2 ^ 8 % 256) := by
    omega
  have h3 : c % 256 % 256 % 2 ^ 32 = c % 256 := by omega
  rw [h0, h1, h2, h3]
  exact bigEndian_or c

theorem groupAt_take (s : List Nat) (n k : Nat) (h : k < n) :
    groupAt (s.take (4 * n)) k = groupAt s k := by
  simp only [groupAt, List.drop_take, List.take_take]
  rw [Nat.min_eq_left (by omega)]

/-! ## Occurrences and the library searches -/

theorem isPrefixOf_iff_take (p l : List Nat) :
    p.isPrefixOf l = true ↔ p.length ≤ l.length ∧ l.take p.length = p := by
  rw [ List.isPrefixOf_iff_prefix, List.prefix_iff_eq_take]
  constructor
  · intro h
    refine ⟨?_, h.symm⟩
    have := congrArg List.length h
    rw [List.length_take] at this
    omega
  · intro h; exact h.2.symm

theorem occursAt_le {s p : List Nat} {j : Nat} (h : OccursAt s p j) : j ≤ s.length := by
  unfold OccursAt at h; omega

theorem occursAt_iff_isPrefixOf (s p : List Nat) (j : Nat) (hj : j ≤ s.length) :
    OccursAt s p j ↔ p.isPrefixOf (s.drop j) = true := by
  rw [isPrefixOf_iff_take, OccursAt, List.length_drop]
  constructor
  · intro h; exact ⟨by omega, h.2⟩
  · intro h; exact ⟨by omega, h.2⟩

theorem occursAt_drop (s p : List Nat) (i j : Nat) (hi : i ≤ s.length) :
    OccursAt (s.drop i) p j ↔ OccursAt s p (i + j) := by
  simp only [OccursAt, List.length_drop, List.drop_drop]
  constructor
  · intro h; exact ⟨by omega, h.2⟩
  · intro h; exact ⟨by omega, h.2⟩

theorem occursAt_take (s p : List Nat) (e j : Nat) (he : e ≤ s.length) :
    OccursAt (s.take e) p j ↔ j + p.length ≤ e ∧ OccursAt s p j := by
  simp only [OccursAt, List.length_take, List.drop_take, List.take_take]
  constructor
  · intro h
    have h1 : j + p.length ≤ e := by omega
    refine ⟨h1, by omega, ?_⟩
    have h2 := h.2
    rw [Nat.min_eq_left (by omega)] at h2
    exact h2
  · intro h
    refine ⟨by omega, ?_⟩
    rw [Nat.min_eq_left (by omega)]
    exact h.2.2

theorem occursAt_cons_succ (c : Nat) (cs p : List Nat) (j : Nat) :
    OccursAt (c :: cs) p (j + 1) ↔ OccursAt cs p j := by
  simp only [OccursAt, List.length_cons, List.drop_succ_cons]
  constructor
  · intro h; exact ⟨by omega, h.2⟩
  · intro h; exact ⟨by omega, h.2⟩

/-- The scan of `strings.Index` returns the least offset of an occurrence in
the remaining text, shifted by the offset `k` of that text, or `-1`. -/
theorem stringsIndexFrom_spec (p : List Nat) :
    ∀ (s : List Nat) (k : Nat),
      (stringsIndexFrom p s k = -1 ∧ ∀ j, ¬ OccursAt s p j) ∨
      (∃ j : Nat, stringsIndexFrom p s k = ((k + j : Nat) : Int) ∧ OccursAt s p j ∧
        ∀ j1, j1 < j → ¬ OccursAt s p j1) := by
  intro s
  induction s with
  | nil =>
    intro k
    by_cases hp : p.isPrefixOf [] = true
    · right
      refine ⟨0, by simp [stringsIndexFrom, hp], ?_, by intro j1 h; omega⟩
      exact (occursAt_iff_isPrefixOf [] p 0 (by simp)).2 (by simpa using hp)
    · left
      refine ⟨by simp [stringsIndexFrom, hp], ?_⟩
      intro j hj
      have hj0 : j = 0 := by have := occursAt_le hj; simpa using this
      subst hj0
      exact hp (by simpa using (occursAt_iff_isPrefixOf [] p 0 (by simp)).1 hj)
  | cons c cs ih =>
    intro k
    by_cases hp : p.isPrefixOf (c :: cs) = true
    · right
      refine ⟨0, by simp [stringsIndexFrom, hp], ?_, by intro j1 h; omega⟩
      exact (occursAt_iff_isPrefixOf (c :: cs) p 0 (by simp)).2 (by simpa using hp)
    · have h0 : ¬ OccursAt (c :: cs) p 0 := by
        intro h
        exact hp (by simpa using (occursAt_iff_isPrefixOf (c :: cs) p 0 (by simp)).1 h)
      have hstep : stringsIndexFrom p (c :: cs) k = stringsIndexFrom p cs (k + 1) := by
        simp [stringsIndexFrom, hp]
      rcases ih (k + 1) with ⟨hr, hno⟩ | ⟨j, hr, hocc, hmin⟩
      · left
        refine ⟨by rw [hstep, hr], ?_⟩
        intro j hj
        cases j with
        | zero => exact h0 hj
        | succ j1 => exact hno j1 ((occursAt_cons_succ c cs p j1).1 hj)
      · right
        refine ⟨j + 1, ?_, (occursAt_cons_succ c cs p j).2 hocc, ?_⟩
        · rw [hstep, hr]; push_cast; ring
        · intro j1 hj1 hj
          cases j1 with
          | zero => exact h0 hj
          | succ j2 => exact hmin j2 (by omega) ((occursAt_cons_succ c cs p j2).1 hj)

theorem stringsIndex_spec (s p : List Nat) : IsFirstOccurrenceFrom s p 0 (stringsIndex s p) := by
  unfold IsFirstOccurrenceFrom stringsIndex
  rcases stringsIndexFrom_spec p s 0 with ⟨hr, hno⟩ | ⟨j, hr, hocc, hmin⟩
  · exact Or.inl ⟨hr, fun j _ => hno j⟩
  · exact Or.inr ⟨j, by simpa using hr, Nat.zero_le _, hocc, fun k _ hk => hmin k hk⟩

/-- The scan of `strings.LastIndex` over the candidates below `n` returns the
greatest of them at which the needle occurs, or `-1`. -/
theorem stringsLastIndexLoop_spec (s p : List Nat) :
    ∀ n, n ≤ s.length + 1 →
      (stringsLastIndexLoop s p n = -1 ∧ ∀ j, j < n → ¬ OccursAt s p j) ∨
      (∃ j : Nat, stringsLastIndexLoop s p n = (j : Int) ∧ j < n ∧ OccursAt s p j ∧
        ∀ k, j < k → k < n → ¬ OccursAt s p k) := by
  intro n
  induction n with
  | zero =>
    intro _
    exact Or.inl ⟨rfl, by intro j hj; omega⟩
  | succ n ih =>
    intro hn
    by_cases hp : p.isPrefixOf (s.drop n) = true
    · right
      refine ⟨n, by simp [stringsLastIndexLoop, hp], by omega, ?_, by intro k h1 h2; omega⟩
      exact (occursAt_iff_isPrefixOf s p n (by omega)).2 hp
    · have h0 : ¬ OccursAt s p n := fun h => hp ((occursAt_iff_isPrefixOf s p n (by omega)).1 h)
      have hstep : stringsLastIndexLoop s p (n + 1) = stringsLastIndexLoop s p n := by
        simp [stringsLastIndexLoop, hp]
      rcases ih (by omega) with ⟨hr, hno⟩ | ⟨j, hr, hlt, hocc, hmax⟩
      · left
        refine ⟨by rw [hstep, hr], ?_⟩
        intro j hj
        by_cases hjn : j = n
        · subst hjn; exact h0
        · exact hno j (by omega)
      · right
        refine ⟨j, by rw [hstep, hr], by omega, hocc, ?_⟩
        intro k h1 h2
        by_cases hkn : k = n
        · subst hkn; exact h0
        · exact hmax k h1 (by omega)

theorem stringsLastIndex_spec (s p : List Nat) : IsLastOccurrence s p (stringsLastIndex s p) := by
  unfold IsLastOccurrence stringsLastIndex
  rcases stringsLastIndexLoop_spec s p (s.length + 1) (le_refl _) with
    ⟨hr, hno⟩ | ⟨j, hr, _, hocc, hmax⟩
  · refine Or.inl ⟨hr, ?_⟩
    intro j hj
    exact hno j (by have := occursAt_le hj; omega) hj
  · refine Or.inr ⟨j, hr, hocc, ?_⟩
    intro k hk hocck
    exact hmax k hk (by have := occursAt_le hocck; omega) hocck

/-- A first occurrence in the tail `s[i:]` is, shifted by `i`, a first
occurrence in `s` from offset `i`. -/
theorem isFirstOccurrenceFrom_drop (s p : List Nat) (i : Nat) (hi : i ≤ s.length) (r : Int)
    (h : IsFirstOccurrenceFrom (s.drop i) p 0 r) :
    IsFirstOccurrenceFrom s p i (if r = -1 then -1 else r + (i : Int)) := by
  unfold IsFirstOccurrenceFrom at h ⊢
  rcases h with ⟨hr, hno⟩ | ⟨j, hr, _, hocc, hmin⟩
  · left
    refine ⟨by simp [hr], ?_⟩
    intro j hj hocc
    have : OccursAt (s.drop i) p (j - i) := by
      rw [occursAt_drop s p i (j - i) hi, show i + (j - i) = j by omega]; exact hocc
    exact hno (j - i) (Nat.zero_le _) this
  · right
    refine ⟨i + j, ?_, by omega, (occursAt_drop s p i j hi).1 hocc, ?_⟩
    · have : r ≠ -1 := by omega
      simp only [this, if_false]; push_cast; omega
    · intro k hk1 hk2 hocck
      have : OccursAt (s.drop i) p (k - i) := by
        rw [occursAt_drop s p i (k - i) hi, show i + (k - i) = k by omega]; exact hocck
      exact hmin (k - i) (Nat.zero_le _) (by omega) this

/-! ## `indexOf` -/

theorem indexOf_out_of_range (s p : List Nat) (i : Int) (h : i > (s.length : Int) - 1) :
    indexOf s p i = some (-1) := by
  simp only [indexOf, if_pos h]

theorem indexOf_nonpos (s p : List Nat) (i : Int) (h1 : ¬ i > (s.length : Int) - 1)
    (h2 : i ≤ 0) : indexOf s p i = some (stringsIndex s p) := by
  simp only [indexOf, if_neg h1, if_pos h2]

theorem indexOf_pos (s p : List Nat) (n : Nat) (h1 : 0 < n) (h2 : n < s.length) :
    indexOf s p (n : Int)
      = some (if stringsIndex (s.drop n) p = -1 then -1 else stringsIndex (s.drop n) p + (n : Int)) := by
  have c1 : ¬ ((n : Int) > (s.length : Int) - 1) := by omega
  have c2 : ¬ ((n : Int) ≤ 0) := by omega
  simp only [indexOf, if_neg c1, if_neg c2, goSliceFrom_nat s n (by omega), Option.bind_eq_bind,
    Option.some_bind]
  split <;> rfl

/-- Within range, `indexOf` returns the least offset `j ≥ max(i, 0)` at which
the needle occurs, or `-1`. -/
theorem indexOf_spec (s p : List Nat) (i : Int) (h : i ≤ (s.length : Int) - 1) :
    ∃ r, indexOf s p i = some r ∧ IsFirstOccurrenceFrom s p i.toNat r := by
  by_cases h0 : i ≤ 0
  · refine ⟨_, indexOf_nonpos s p i (by omega) h0, ?_⟩
    rw [Int.toNat_eq_zero.2 h0]
    exact stringsIndex_spec s p
  · obtain ⟨n, rfl⟩ : ∃ n : Nat, i = (n : Int) := ⟨i.toNat, by omega⟩
    refine ⟨_, indexOf_pos s p n (by omega) (by omega), ?_⟩
    rw [Int.toNat_ofNat]
    exact isFirstOccurrenceFrom_drop s p n (by omega) _ (stringsIndex_spec (s.drop n) p)

theorem isFirstOccurrenceFrom_bounds {s p : List Nat} {lo : Nat} {r : Int}
    (h : IsFirstOccurrenceFrom s p lo r) :
    r = -1 ∨ ((lo : Int) ≤ r ∧ r + (p.length : Int) ≤ (s.length : Int)) := by
  rcases h with ⟨hr, _⟩ | ⟨j, hr, hlo, hocc, _⟩
  · exact Or.inl hr
  · right
    unfold OccursAt at hocc
    omega

/-! ## `charsEqual`, `charsIndex`, `charsIndexOf` -/

theorem charsEqualLoop_eq (c2 : List DiffChar) :
    ∀ (rest : List DiffChar) (i : Nat), rest.length + i = c2.length →
      charsEqualLoop c2 rest (i : Int) = some (decide (rest = c2.drop i)) := by
  intro rest
  induction rest with
  | nil =>
    intro i hi
    have : c2.drop i = [] := List.drop_eq_nil_of_le (by simp at hi; omega)
    simp [charsEqualLoop, this]
  | cons c rest ih =>
    intro i hi
    have hlt : i < c2.length := by simp at hi; omega
    have hnext : ((i : Int) + 1) = ((i + 1 : Nat) : Int) := by push_cast; ring
    simp only [charsEqualLoop, goIndex_nat, List.getElem?_eq_getElem hlt, Option.bind_eq_bind,
      Option.some_bind, hnext]
    rw [ List.drop_eq_getElem_cons hlt]
    by_cases hc : c = c2[i]
    · rw [if_neg (by simpa using hc), ih (i + 1) (by simp at hi; omega)]
      simp [hc, -List.getElem_cons_drop]
    · rw [if_pos hc]
      simp [hc, -List.getElem_cons_drop]

theorem charsEqual_eq (c1 c2 : List DiffChar) : charsEqual c1 c2 = some (decide (c1 = c2)) := by
  unfold charsEqual
  by_cases h : c1.length = c2.length
  · rw [if_neg (by simpa using h)]
    have := charsEqualLoop_eq c2 c1 0 (by simpa using h)
    simpa using this
  · rw [if_pos h]
    have : c1 ≠ c2 := fun e => h (by rw [e])
    simp [this]

/-- The loop of `charsIndex`, started at `i`, returns the least offset
`j ≥ i` at which the needle occurs, or `-1`, whenever the fuel covers the
positions that remain. -/
theorem charsIndexLoop_spec (c1 c2 : List DiffChar) :
    ∀ (fuel i : Nat), i ≤ c1.length + 1 → c1.length + 1 < fuel + i →
      ∃ r, charsIndexLoop c1 c2 ((c1.length : Int) - (c2.length : Int)) fuel (i : Int) = some r ∧
        IsFirstOccurrenceFrom c1 c2 i r := by
  intro fuel
  induction fuel with
  | zero => intro i h1 h2; omega
  | succ fuel ih =>
    intro i h1 h2
    by_cases hc : (i : Int) ≤ (c1.length : Int) - (c2.length : Int)
    · have hfit : i + c2.length ≤ c1.length := by omega
      have hs : goSlice c1 (i : Int) ((i : Int) + (c2.length : Int))
          = some ((c1.drop i).take c2.length) := by
        rw [show ((i : Int) + (c2.length : Int)) = ((i + c2.length : Nat) : Int) by push_cast; ring,
          goSlice_nat c1 i (i + c2.length) (by omega) hfit]
        simp
      have hocc : OccursAt c1 c2 i ↔ (c1.drop i).take c2.length = c2 := by
        unfold OccursAt
        exact ⟨fun h => h.2, fun h => ⟨hfit, h⟩⟩
      have hnext : ((i : Int) + 1) = ((i + 1 : Nat) : Int) := by push_cast; ring
      simp only [charsIndexLoop, if_pos hc, hs, charsEqual_eq, Option.bind_eq_bind,
        Option.some_bind, hnext]
      by_cases heq : (c1.drop i).take c2.length = c2
      · refine ⟨(i : Int), by rw [if_pos (by simpa using heq)],
          Or.inr ⟨i, rfl, le_refl _, hocc.2 heq, ?_⟩⟩
        intro k hk1 hk2; omega
      · obtain ⟨r, hr, hspec⟩ := ih (i + 1) (by omega) (by omega)
        refine ⟨r, by rw [if_neg (by simpa using heq)]; exact hr, ?_⟩
        rcases hspec with ⟨hr1, hno⟩ | ⟨j, hr1, hlo, hoccj, hmin⟩
        · left
          refine ⟨hr1, ?_⟩
          intro j hj hoccj
          by_cases hji : j = i
          · subst hji; exact heq (hocc.1 hoccj)
          · exact hno j (by omega) hoccj
        · right
          refine ⟨j, hr1, by omega, hoccj, ?_⟩
          intro k hk1 hk2 hocck
          by_cases hki : k = i
          · subst hki; exact heq (hocc.1 hocck)
          · exact hmin k (by omega) hk2 hocck
    · refine ⟨-1, by simp only [charsIndexLoop, if_neg hc], Or.inl ⟨rfl, ?_⟩⟩
      intro j hj hoccj
      unfold OccursAt at hoccj
      omega

theorem charsIndex_spec (c1 c2 : List DiffChar) :
    ∃ r, charsIndex c1 c2 = some r ∧ IsFirstOccurrenceFrom c1 c2 0 r := by
  have := charsIndexLoop_spec c1 c2 (c1.length + 2) 0 (by omega) (by omega)
  simpa [charsIndex] using this

theorem charsIndexOf_out_of_range (t p : List DiffChar) (i : Int)
    (h : i > (t.length : Int) - 1) : charsIndexOf t p i = some (-1) := by
  simp only [charsIndexOf, if_pos h]

/-- Within range, `charsIndexOf` returns the least position `j ≥ max(i, 0)` at
which the needle occurs, or `-1`. -/
theorem charsIndexOf_spec (t p : List DiffChar) (i : Int) (h : i ≤ (t.length : Int) - 1) :
    ∃ r, charsIndexOf t p i = some r ∧ IsFirstOccurrenceFrom t p i.toNat r := by
  have c1 : ¬ (i > (t.length : Int) - 1) := by omega
  by_cases h0 : i ≤ 0
  · obtain ⟨r, hr, hspec⟩ := charsIndex_spec t p
    refine ⟨r, by simp only [charsIndexOf, if_neg c1, if_pos h0, hr], ?_⟩
    rw [Int.toNat_eq_zero.2 h0]
    exact hspec
  · obtain ⟨n, rfl⟩ : ∃ n : Nat, i = (n : Int) := ⟨i.toNat, by omega⟩
    obtain ⟨r, hr, hspec⟩ := charsIndex_spec (t.drop n) p
    refine ⟨if r = -1 then -1 else r + (n : Int), ?_, ?_⟩
    · simp only [charsIndexOf, if_neg c1, if_neg h0, goSliceFrom_nat t n (by omega), hr,
        Option.bind_eq_bind, Option.some_bind]
      split <;> rfl
    · rw [Int.toNat_ofNat]
      exact isFirstOccurrenceFrom_drop t p n (by omega) r hspec

/-! ## `lastIndexOf` -/

theorem lastIndexOf_whole (s p : List Nat) (i : Int) (h : i ≥ (s.length : Int)) :
    lastIndexOf s p i = some (stringsLastIndex s p) := by
  have c1 : ¬ (i < 0) := by omega
  simp only [lastIndexOf, if_neg c1, if_pos h]

/-- Inside the string, `lastIndexOf` searches the window that ends `size`
bytes after `i`, where `size` is the width `utf8.DecodeRuneInString` reports
for the text from `i` on. -/
theorem lastIndexOf_window (s p : List Nat) (n size : Nat) (h1 : n < s.length)
    (h2 : (decodeRuneInString (s.drop n)).2 = (size : Int)) (h3 : n + size ≤ s.length) :
    lastIndexOf s p (n : Int) = some (stringsLastIndex (s.take (n + size)) p) := by
  have c1 : ¬ ((n : Int) < 0) := by omega
  have c2 : ¬ ((n : Int) ≥ (s.length : Int)) := by omega
  simp only [lastIndexOf, if_neg c1, if_neg c2, goSliceFrom_nat s n (by omega), h2,
    Option.bind_eq_bind, Option.some_bind]
  rw [show ((n : Int) + (size : Int)) = ((n + size : Nat) : Int) by push_cast; ring,
    goSliceTo_nat s (n + size) h3]
  rfl

/-! ## UTF-8: decoding what `encodeScalar` wrote -/

theorem or_eq_add (n k a x : Nat) (hn : n = 2 ^ k * a) (hx : x < 2 ^ k) : n ||| x = n + x := by
  subst hn
  exact (Nat.mul_add_lt_is_or hx a).symm

theorem shl_or_eq_add (a k x : Nat) (hx : x < 2 ^ k) : a <<< k ||| x = a * 2 ^ k + x := by
  rw [Nat.shiftLeft_eq, Nat.mul_comm a (2 ^ k)]
  exact (Nat.mul_add_lt_is_or hx a).symm

theorem and_63 (x : Nat) : x &&& 0x3F = x % 64 := Nat.and_pow_two_sub_one_eq_mod x 6

theorem and_31 (x : Nat) : x &&& 0x1F = x % 32 := Nat.and_pow_two_sub_one_eq_mod x 5

theorem and_15 (x : Nat) : x &&& 0x0F = x % 16 := Nat.and_pow_two_sub_one_eq_mod x 4

theorem and_7 (x : Nat) : x &&& 0x07 = x % 8 := Nat.and_pow_two_sub_one_eq_mod x 3

theorem decodeRuneInString_ascii (b : Nat) (post : List Nat) (h : b < 0x80) :
    decodeRuneInString (b :: post) = ((b : Int), 1) := by
  simp [decodeRuneInString, utf8First, h]

theorem decodeRuneInString_continuation (b : Nat) (post : List Nat) (h : isContinuation b) :
    decodeRuneInString (b :: post) = (runeError, 1) := by
  unfold isContinuation at h
  have h1 : ¬ b < 0x80 := by omega
  have h2 : b < 0xC2 := by omega
  simp [decodeRuneInString, utf8First, h1, h2]

theorem utf8First_two (b : Nat) (h : 0xC2 ≤ b ∧ b ≤ 0xDF) : utf8First b = 0x02 := by
  have h1 : ¬ b < 0x80 := by omega
  have h2 : ¬ b < 0xC2 := by omega
  have h3 : b < 0xE0 := by omega
  simp only [utf8First, h1, h2, h3, if_true, if_false]

theorem decodeRuneInString_two (b0 b1 : Nat) (post : List Nat) (h0 : 0xC2 ≤ b0 ∧ b0 ≤ 0xDF)
    (h1 : isContinuation b1) :
    decodeRuneInString (b0 :: b1 :: post) = ((((b0 % 32) * 64 + b1 % 64 : Nat) : Int), 2) := by
  unfold isContinuation at h1
  have hr : ¬ (b1 < 0x80 ∨ 0xBF < b1) := by omega
  have hv : (b0 &&& 0x1F) <<< 6 ||| (b1 &&& 0x3F) = (b0 % 32) * 64 + b1 % 64 := by
    rw [and_31, and_63, shl_or_eq_add _ _ _ (by omega)]; norm_num
  have e1 : (2 &&& 7 : Nat) = 2 := by decide
  have e2 : (2 >>> 4 : Nat) = 0 := by decide
  simp only [decodeRuneInString, utf8First_two b0 h0, e1, e2, acceptRanges]
  simp [hr, hv]

/-- The three-byte branch of `utf8.DecodeRuneInString`, for a first byte whose
table entry `x` has size 3. -/
theorem decodeRuneInString_three (b0 b1 b2 x : Nat) (post : List Nat) (hx : utf8First b0 = x)
    (hlt : x < 0xF0) (hsz : x &&& 7 = 3)
    (hacc : (acceptRanges (x >>> 4)).1 ≤ b1 ∧ b1 ≤ (acceptRanges (x >>> 4)).2)
    (h2 : isContinuation b2) :
    decodeRuneInString (b0 :: b1 :: b2 :: post)
      = ((((b0 % 16) * 4096 + (b1 % 64) * 64 + b2 % 64 : Nat) : Int), 3) := by
  unfold isContinuation at h2
  have hr1 : ¬ (b1 < (acceptRanges (x >>> 4)).1 ∨ (acceptRanges (x >>> 4)).2 < b1) := by omega
  have hr2 : ¬ (b2 < 0x80 ∨ 0xBF < b2) := by omega
  have hv : (b0 &&& 0x0F) <<< 12 ||| (b1 &&& 0x3F) <<< 6 ||| (b2 &&& 0x3F)
      = (b0 % 16) * 4096 + (b1 % 64) * 64 + b2 % 64 := by
    rw [and_15, and_63, and_63, shl_or_eq_add _ 12 _ (by rw [Nat.shiftLeft_eq]; omega),
      Nat.shiftLeft_eq]
    have e : b0 % 16 * 2 ^ 12 + b1 % 64 * 2 ^ 6 = 2 ^ 6 * (b0 % 16 * 64 + b1 % 64) := by omega
    rw [e, ← Nat.mul_add_lt_is_or (by omega)]
    omega
  have c0 : ¬ (0xF0 ≤ x) := by omega
  simp only [decodeRuneInString, hx, hsz, if_neg c0, if_neg hr1, if_neg hr2, hv]
  simp

/-- The four-byte branch of `utf8.DecodeRuneInString`, for a first byte whose
table entry `x` has size 4. -/
theorem decodeRuneInString_four (b0 b1 b2 b3 x : Nat) (post : List Nat)
    (hx : utf8First b0 = x) (hlt : x < 0xF0) (hsz : x &&& 7 = 4)
    (hacc : (acceptRanges (x >>> 4)).1 ≤ b1 ∧ b1 ≤ (acceptRanges (x >>> 4)).2)
    (h2 : isContinuation b2) (h3 : isContinuation b3) :
    decodeRuneInString (b0 :: b1 :: b2 :: b3 :: post)
      = ((((b0 % 8) * 262144 + (b1 % 64) * 4096 + (b2 % 64) * 64 + b3 % 64 : Nat) : Int), 4) := by
  unfold isContinuation at h2 h3
  have hr1 : ¬ (b1 < (acceptRanges (x >>> 4)).1 ∨ (acceptRanges (x >>> 4)).2 < b1) := by omega
  have hr2 : ¬ (b2 < 0x80 ∨ 0xBF < b2) := by omega
  have hr3 : ¬ (b3 < 0x80 ∨ 0xBF < b3) := by omega
  have hv : (b0 &&& 0x07) <<< 18 ||| (b1 &&& 0x3F) <<< 12 ||| (b2 &&& 0x3F) <<< 6
        ||| (b3 &&& 0x3F)
      = (b0 % 8) * 262144 + (b1 % 64) * 4096 + (b2 % 64) * 64 + b3 % 64 := by
    rw [and_7, and_63, and_63, and_63, shl_or_eq_add _ 18 _ (by rw [Nat.shiftLeft_eq]; omega),
      Nat.shiftLeft_eq, Nat.shiftLeft_eq]
    have e : b0 % 8 * 2 ^ 18 + b1 % 64 * 2 ^ 12 = 2 ^ 12 * (b0 % 8 * 64 + b1 % 64) := by omega
    rw [e, ← Nat.mul_add_lt_is_or (by omega)]
    have e2 : 2 ^ 12 * (b0 % 8 * 64 + b1 % 64) + b2 % 64 * 2 ^ 6
        = 2 ^ 6 * (b0 % 8 * 4096 + b1 % 64 * 64 + b2 % 64) := by omega
    rw [e2, ← Nat.mul_add_lt_is_or (by omega)]
    omega
  have c0 : ¬ (0xF0 ≤ x) := by omega
  have c3 : ¬ ((4 : Nat) ≤ 3) := by omega
  have c2 : ¬ ((4 : Nat) ≤ 2) := by omega
  simp only [decodeRuneInString, hx, hsz, if_neg c0, if_neg hr1, if_neg hr2, if_neg hr3, hv,
    if_neg c2, if_neg c3]
  simp

theorem or_192 (x : Nat) (h : x < 64) : 0xC0 ||| x = 192 + x :=
  or_eq_add 0xC0 6 3 x (by norm_num) (by omega)

theorem or_128 (x : Nat) (h : x < 64) : 0x80 ||| x = 128 + x :=
  or_eq_add 0x80 6 2 x (by norm_num) (by omega)

theorem or_224 (x : Nat) (h : x < 16) : 0xE0 ||| x = 224 + x :=
  or_eq_add 0xE0 4 14 x (by norm_num) (by omega)

theorem or_240 (x : Nat) (h : x < 8) : 0xF0 ||| x = 240 + x :=
  or_eq_add 0xF0 3 30 x (by norm_num) (by omega)

theorem encodeScalar_one (r : Nat) (h : r ≤ 0x7F) : encodeScalar r = [r] := by
  have e : r % 256 = r := by omega
  simp only [encodeScalar, if_pos h, toByte, e]

theorem encodeScalar_two (r : Nat) (h1 : ¬ r ≤ 0x7F) (h2 : r ≤ 0x7FF) :
    encodeScalar r = [192 + r / 64, 128 + r % 64] := by
  have e1 : r / 2 ^ 6 % 256 = r / 64 := by omega
  have e2 : r % 256 % 64 = r % 64 := by omega
  simp only [encodeScalar, if_neg h1, if_pos h2, toByte, Nat.shiftRight_eq_div_pow, and_63, e1, e2]
  rw [or_192 _ (by omega), or_128 _ (by omega)]

theorem encodeScalar_three (r : Nat) (h1 : ¬ r ≤ 0x7FF) (h2 : r ≤ 0xFFFF) :
    encodeScalar r = [224 + r / 4096, 128 + r / 64 % 64, 128 + r % 64] := by
  have h0 : ¬ r ≤ 0x7F := by omega
  have e1 : r / 2 ^ 12 % 256 = r / 4096 := by omega
  have e2 : r / 2 ^ 6 % 256 % 64 = r / 64 % 64 := by omega
  have e3 : r % 256 % 64 = r % 64 := by omega
  simp only [encodeScalar, if_neg h0, if_neg h1, if_pos h2, toByte, Nat.shiftRight_eq_div_pow,
    and_63, e1, e2, e3]
  rw [or_224 _ (by omega), or_128 _ (by omega), or_128 _ (by omega)]

theorem encodeScalar_four (r : Nat) (h1 : ¬ r ≤ 0xFFFF) (h2 : r ≤ 0x10FFFF) :
    encodeScalar r = [240 + r / 262144, 128 + r / 4096 % 64, 128 + r / 64 % 64, 128 + r % 64] := by
  have h0 : ¬ r ≤ 0x7F := by omega
  have h00 : ¬ r ≤ 0x7FF := by omega
  have e1 : r / 2 ^ 18 % 256 = r / 262144 := by omega
  have e2 : r / 2 ^ 12 % 256 % 64 = r / 4096 % 64 := by omega
  have e3 : r / 2 ^ 6 % 256 % 64 = r / 64 % 64 := by omega
  have e4 : r % 256 % 64 = r % 64 := by omega
  simp only [encodeScalar, if_neg h0, if_neg h00, if_neg h1, toByte, Nat.shiftRight_eq_div_pow,
    and_63, e1, e2, e3, e4]
  rw [or_240 _ (by omega), or_128 _ (by omega), or_128 _ (by omega), or_128 _ (by omega)]

theorem length_encodeScalar_pos (r : Nat) : 1 ≤ (encodeScalar r).length := by
  unfold encodeScalar
  split_ifs <;> simp

theorem length_encodeScalar_le (r : Nat) : (encodeScalar r).length ≤ 4 := by
  unfold encodeScalar
  split_ifs <;> simp

theorem utf8First_three (b : Nat) (h : 0xE1 ≤ b ∧ b ≤ 0xEF ∧ b ≠ 0xED) : utf8First b = 0x03 := by
  have h1 : ¬ b < 0x80 := by omega
  have h2 : ¬ b < 0xC2 := by omega
  have h3 : ¬ b < 0xE0 := by omega
  have h4 : ¬ b = 0xE0 := by omega
  have h6 : ¬ b = 0xED := by omega
  have h7 : b < 0xF0 := by omega
  by_cases h5 : b < 0xED
  · simp only [utf8First, h1, h2, h3, h4, h5, if_true, if_false]
  · simp only [utf8First, h1, h2, h3, h4, h5, h6, h7, if_true, if_false]

theorem utf8First_four (b : Nat) (h : 0xF1 ≤ b ∧ b ≤ 0xF3) : utf8First b = 0x04 := by
  have h1 : ¬ b < 0x80 := by omega
  have h2 : ¬ b < 0xC2 := by omega
  have h3 : ¬ b < 0xE0 := by omega
  have h4 : ¬ b = 0xE0 := by omega
  have h5 : ¬ b < 0xED := by omega
  have h6 : ¬ b = 0xED := by omega
  have h7 : ¬ b < 0xF0 := by omega
  have h8 : ¬ b = 0xF0 := by omega
  have h9 : b < 0xF4 := by omega
  simp only [utf8First, h1, h2, h3, h4, h5, h6, h7, h8, h9, if_true, if_false]

/-- Decoding reads back a scalar value that `encodeScalar` wrote, whatever
follows it: the rune is the scalar value and the width is the length of its
encoding. -/
theorem decodeRuneInString_encodeScalar (r : Nat) (post : List Nat)
    (hv : validRune (r : Int)) :
    decodeRuneInString (encodeScalar r ++ post) = ((r : Int), ((encodeScalar r).length : Int)) := by
  unfold validRune at hv
  have hmax : r ≤ 0x10FFFF := by omega
  have hsur : ¬ (0xD800 ≤ r ∧ r ≤ 0xDFFF) := by omega
  by_cases c1 : r ≤ 0x7F
  · rw [encodeScalar_one r c1]
    exact decodeRuneInString_ascii r post (by omega)
  by_cases c2 : r ≤ 0x7FF
  · rw [encodeScalar_two r c1 c2]
    have := decodeRuneInString_two (192 + r / 64) (128 + r % 64) post (by omega)
      (by unfold isContinuation; omega)
    rw [List.cons_append, List.cons_append, List.nil_append, this]
    have e : (192 + r / 64) % 32 * 64 + (128 + r % 64) % 64 = r := by omega
    rw [e]; rfl
  by_cases c3 : r ≤ 0xFFFF
  · rw [encodeScalar_three r c2 c3]
    have e : (224 + r / 4096) % 16 * 4096 + (128 + r / 64 % 64) % 64 * 64 + (128 + r % 64) % 64
        = r := by omega
    have hc2 : isContinuation (128 + r % 64) := by unfold isContinuation; omega
    simp only [List.cons_append, List.nil_append]
    by_cases k0 : r / 4096 = 0
    · have hb : 224 + r / 4096 = 0xE0 := by omega
      have := decodeRuneInString_three (224 + r / 4096) (128 + r / 64 % 64) (128 + r % 64) 0x13
        post (by rw [hb]; rfl) (by norm_num) (by decide)
        (by rw [show (0x13 >>> 4 : Nat) = 1 by decide]; simp only [acceptRanges]; omega) hc2
      rw [this, e]; rfl
    by_cases k13 : r / 4096 = 13
    · have hb : 224 + r / 4096 = 0xED := by omega
      have := decodeRuneInString_three (224 + r / 4096) (128 + r / 64 % 64) (128 + r % 64) 0x23
        post (by rw [hb]; rfl) (by norm_num) (by decide)
        (by rw [show (0x23 >>> 4 : Nat) = 2 by decide]; simp only [acceptRanges]; omega) hc2
      rw [this, e]; rfl
    · have := decodeRuneInString_three (224 + r / 4096) (128 + r / 64 % 64) (128 + r % 64) 0x03
        post (utf8First_three _ (by omega)) (by norm_num) (by decide)
        (by rw [show (0x03 >>> 4 : Nat) = 0 by decide]; simp only [acceptRanges]; omega) hc2
      rw [this, e]; rfl
  · rw [encodeScalar_four r c3 hmax]
    have e : (240 + r / 262144) % 8 * 262144 + (128 + r / 4096 % 64) % 64 * 4096
        + (128 + r / 64 % 64) % 64 * 64 + (128 + r % 64) % 64 = r := by omega
    have hc2 : isContinuation (128 + r / 64 % 64) := by unfold isContinuation; omega
    have hc3 : isContinuation (128 + r % 64) := by unfold isContinuation; omega
    simp only [List.cons_append, List.nil_append]
    by_cases k0 : r / 262144 = 0
    · have hb : 240 + r / 262144 = 0xF0 := by omega
      have := decodeRuneInString_four (240 + r / 262144) (128 + r / 4096 % 64)
        (128 + r / 64 % 64) (128 + r % 64) 0x34 post (by rw [hb]; rfl) (by norm_num) (by decide)
        (by rw [show (0x34 >>> 4 : Nat) = 3 by decide]; simp only [acceptRanges]; omega) hc2 hc3
      rw [this, e]; rfl
    by_cases k4 : r / 262144 = 4
    · have hb : 240 + r / 262144 = 0xF4 := by omega
      have := decodeRuneInString_four (240 + r / 262144) (128 + r / 4096 % 64)
        (128 + r / 64 % 64) (128 + r % 64) 0x44 post (by rw [hb]; rfl) (by norm_num) (by decide)
        (by rw [show (0x44 >>> 4 : Nat) = 4 by decide]; simp only [acceptRanges]; omega) hc2 hc3
      rw [this, e]; rfl
    · have := decodeRuneInString_four (240 + r / 262144) (128 + r / 4096 % 64)
        (128 + r / 64 % 64) (128 + r % 64) 0x04 post (utf8First_four _ (by omega)) (by norm_num)
        (by decide)
        (by rw [show (0x04 >>> 4 : Nat) = 0 by decide]; simp only [acceptRanges]; omega) hc2 hc3
      rw [this, e]; rfl

/-- The last byte of the encoding of a scalar value above U+007F is a
continuation byte. -/
theorem encodeScalar_last (r : Nat) (hmax : r ≤ 0x10FFFF) (h : ¬ r ≤ 0x7F) :
    ∃ front b, encodeScalar r = front ++ [b] ∧ isContinuation b := by
  have hc : isContinuation (128 + r % 64) := by unfold isContinuation; omega
  by_cases c2 : r ≤ 0x7FF
  · exact ⟨[192 + r / 64], 128 + r % 64, by rw [encodeScalar_two r h c2]; rfl, hc⟩
  by_cases c3 : r ≤ 0xFFFF
  · exact ⟨[224 + r / 4096, 128 + r / 64 % 64], 128 + r % 64,
      by rw [encodeScalar_three r c2 c3]; rfl, hc⟩
  · exact ⟨[240 + r / 262144, 128 + r / 4096 % 64, 128 + r / 64 % 64], 128 + r % 64,
      by rw [encodeScalar_four r c3 hmax]; rfl, hc⟩

/-! ## `lastIndexOf` at the first and at the last byte of a codepoint -/

theorem encodeRune_valid (r : Int) (hv : validRune r) : encodeRune r = encodeScalar r.toNat := by
  simp only [encodeRune, if_pos hv]

theorem take_codepoint (front cp post : List Nat) :
    (front ++ cp ++ post).take (front.length + cp.length) = front ++ cp := by
  rw [← List.length_append]
  exact List.take_left' rfl

/-- At the first byte of a codepoint, the window of `lastIndexOf` ends just
past that codepoint. -/
theorem lastIndexOf_first_byte (front post p : List Nat) (r : Nat) (hv : validRune (r : Int)) :
    lastIndexOf (front ++ encodeScalar r ++ post) p (front.length : Int)
      = some (stringsLastIndex (front ++ encodeScalar r) p) := by
  have hpos := length_encodeScalar_pos r
  have hdrop : (front ++ encodeScalar r ++ post).drop front.length = encodeScalar r ++ post := by
    rw [List.append_assoc]; exact List.drop_left' rfl
  have h := lastIndexOf_window (front ++ encodeScalar r ++ post) p front.length
    (encodeScalar r).length (by simp only [List.length_append]; omega)
    (by rw [hdrop, decodeRuneInString_encodeScalar r post hv])
    (by simp only [List.length_append]; omega)
  rw [h, take_codepoint]

/-- At the last byte of a codepoint, the window of `lastIndexOf` ends just
past that codepoint. -/
theorem lastIndexOf_last_byte (front post p : List Nat) (r : Nat) (hv : validRune (r : Int)) :
    lastIndexOf (front ++ encodeScalar r ++ post) p
        ((front.length + (encodeScalar r).length - 1 : Nat) : Int)
      = some (stringsLastIndex (front ++ encodeScalar r) p) := by
  by_cases c1 : r ≤ 0x7F
  · have hl : (encodeScalar r).length = 1 := by rw [encodeScalar_one r c1]; rfl
    rw [hl, Nat.add_sub_cancel]
    exact lastIndexOf_first_byte front post p r hv
  · have hmax : r ≤ 0x10FFFF := by unfold validRune at hv; omega
    obtain ⟨mid, b, hb, hcont⟩ := encodeScalar_last r hmax c1
    have hlen : (encodeScalar r).length = mid.length + 1 := by rw [hb]; simp
    have hdrop : (front ++ encodeScalar r ++ post).drop (front.length + mid.length)
        = b :: post := by
      rw [hb, show front ++ (mid ++ [b]) ++ post = (front ++ mid) ++ (b :: post) by simp,
        ← List.length_append]
      exact List.drop_left' rfl
    have h := lastIndexOf_window (front ++ encodeScalar r ++ post) p (front.length + mid.length) 1
      (by simp only [List.length_append]; omega)
      (by rw [hdrop, decodeRuneInString_continuation b post hcont]; rfl)
      (by simp only [List.length_append]; omega)
    rw [show front.length + (encodeScalar r).length - 1 = front.length + mid.length by omega, h,
      show front.length + mid.length + 1 = front.length + (encodeScalar r).length by omega,
      take_codepoint]

/-! ## The replacer and the escape table -/

theorem isPrefixOf_append_of_le (old a x : List Nat) (h : old.length ≤ a.length) :
    old.isPrefixOf (a ++ x) = old.isPrefixOf a := by
  rw [Bool.eq_iff_iff, isPrefixOf_iff_take, isPrefixOf_iff_take, List.take_append_of_le_length h,
    List.length_append]
  constructor
  · intro hh; exact ⟨h, hh.2⟩
  · intro hh; exact ⟨by omega, hh.2⟩

theorem replacerLookup_some (table : List (List Nat × List Nat)) (s : List Nat)
    (e : List Nat × List Nat) (h : replacerLookup table s = some e) :
    e ∈ table ∧ e.1.isPrefixOf s = true := by
  induction table with
  | nil => simp [replacerLookup] at h
  | cons hd tl ih =>
    obtain ⟨old, new⟩ := hd
    by_cases hp : old.isPrefixOf s = true
    · simp only [replacerLookup, hp, if_true, Option.some.injEq] at h
      subst h
      exact ⟨List.mem_cons_self _ _, hp⟩
    · simp only [replacerLookup, hp, Bool.false_eq_true, if_false] at h
      exact ⟨List.mem_cons_of_mem _ (ih h).1, (ih h).2⟩

theorem replacerLookup_none (table : List (List Nat × List Nat)) (s : List Nat)
    (h : replacerLookup table s = none) : ∀ e ∈ table, e.1.isPrefixOf s = false := by
  induction table with
  | nil => intro e he; simp at he
  | cons hd tl ih =>
    obtain ⟨old, new⟩ := hd
    by_cases hp : old.isPrefixOf s = true
    · simp [replacerLookup, hp] at h
    · simp only [replacerLookup, hp, Bool.false_eq_true, if_false] at h
      intro e he
      rcases List.mem_cons.1 he with rfl | he1
      · exact Bool.eq_false_iff.2 hp
      · exact ih h e he1

theorem replacerLookup_eq_none (table : List (List Nat × List Nat)) (s : List Nat)
    (h : ∀ e ∈ table, e.1.isPrefixOf s = false) : replacerLookup table s = none := by
  cases hl : replacerLookup table s with
  | none => rfl
  | some e =>
    have := replacerLookup_some table s e hl
    rw [h e this.1] at this
    exact absurd this.2 (by simp)

theorem replacerLookup_append (table : List (List Nat × List Nat)) (a x : List Nat)
    (h : ∀ e ∈ table, e.1.length ≤ a.length) :
    replacerLookup table (a ++ x) = replacerLookup table a := by
  induction table with
  | nil => rfl
  | cons hd tl ih =>
    obtain ⟨old, new⟩ := hd
    have h1 : old.length ≤ a.length := h (old, new) (List.mem_cons_self _ _)
    simp only [replacerLookup, isPrefixOf_append_of_le old a x h1,
      ih (fun e he => h e (List.mem_cons_of_mem _ he))]

theorem replacerScan_skip (table : List (List Nat × List Nat)) :
    ∀ (s : List Nat) (n : Nat), replacerScan table s n = replacerScan table (s.drop n) 0 := by
  intro s
  induction s with
  | nil => intro n; simp [replacerScan]
  | cons c cs ih =>
    intro n
    cases n with
    | zero => rfl
    | succ m => simp only [replacerScan, List.drop_succ_cons]; exact ih m

theorem unescaperTable_key_length : ∀ e ∈ unescaperTable, e.1.length = 3 := by decide

theorem unescaperTable_value_length : ∀ e ∈ unescaperTable, e.2.length = 1 := by decide

theorem unescaperTable_key_shape :
    ∀ e ∈ unescaperTable, e.1.getD 0 0 = 37 ∧ e.1.getD 1 0 ≠ 37 ∧ e.1.getD 2 0 ≠ 37 := by
  decide

theorem unescaperTable_functional :
    ∀ e ∈ unescaperTable, ∀ e1 ∈ unescaperTable, e.1 = e1.1 → e = e1 := by
  decide

theorem unescaperTable_values_not_in_keys :
    ∀ e ∈ unescaperTable, ∀ e1 ∈ unescaperTable, ∀ b ∈ e.1, b ∉ e1.2 := by
  decide

theorem unescaperReplace_nil : unescaperReplace [] = [] := rfl

theorem unescaperReplace_cons_none (c : Nat) (cs : List Nat)
    (h : replacerLookup unescaperTable (c :: cs) = none) :
    unescaperReplace (c :: cs) = c :: unescaperReplace cs := by
  simp only [unescaperReplace, replacerScan, h]

theorem unescaperReplace_cons_some (c : Nat) (cs : List Nat) (e : List Nat × List Nat)
    (h : replacerLookup unescaperTable (c :: cs) = some e) :
    unescaperReplace (c :: cs) = e.2 ++ unescaperReplace ((c :: cs).drop 3) := by
  have hlen := unescaperTable_key_length e (replacerLookup_some _ _ e h).1
  simp only [unescaperReplace, replacerScan, h, hlen]
  rw [replacerScan_skip unescaperTable cs 2]
  rfl

theorem length_three {l : List Nat} (h : l.length = 3) : ∃ x y z, l = [x, y, z] := by
  match l, h with
  | [x, y, z], _ => exact ⟨x, y, z, rfl⟩

theorem isPrefixOf_self_append (k b : List Nat) : k.isPrefixOf (k ++ b) = true := by
  rw [ List.isPrefixOf_iff_prefix]
  exact List.prefix_append k b

/-- At the start of a key of the table, the lookup finds that key and its
value. -/
theorem replacerLookup_key (k r b : List Nat) (hk : (k, r) ∈ unescaperTable) :
    replacerLookup unescaperTable (k ++ b) = some (k, r) := by
  cases hl : replacerLookup unescaperTable (k ++ b) with
  | none =>
    have := replacerLookup_none _ _ hl (k, r) hk
    rw [isPrefixOf_self_append] at this
    exact absurd this (by simp)
  | some e =>
    obtain ⟨he, hp⟩ := replacerLookup_some _ _ e hl
    have hlen := unescaperTable_key_length e he
    have hklen : k.length = 3 := unescaperTable_key_length (k, r) hk
    have htake := ((isPrefixOf_iff_take e.1 (k ++ b)).1 hp).2
    rw [hlen, List.take_left' hklen] at htake
    rw [unescaperTable_functional e he (k, r) hk htake.symm]

/-- No key of the table starts inside a text `a` and ends inside a key that
follows `a`: the lookup at the start of `a` does not see what follows. -/
theorem replacerLookup_before_key (a k r b : List Nat) (ha : a ≠ [])
    (hk : (k, r) ∈ unescaperTable) :
    replacerLookup unescaperTable (a ++ (k ++ b)) = replacerLookup unescaperTable a := by
  by_cases hlen : 3 ≤ a.length
  · exact replacerLookup_append _ a _ (fun e he => by rw [unescaperTable_key_length e he]; exact hlen)
  · have hnone : replacerLookup unescaperTable a = none := by
      apply replacerLookup_eq_none
      intro e he
      rw [Bool.eq_false_iff]
      intro hp
      have := ((isPrefixOf_iff_take e.1 a).1 hp).1
      rw [unescaperTable_key_length e he] at this
      omega
    rw [hnone]
    apply replacerLookup_eq_none
    intro e he
    rw [Bool.eq_false_iff]
    intro hp
    have htake := ((isPrefixOf_iff_take e.1 (a ++ (k ++ b))).1 hp).2
    rw [unescaperTable_key_length e he] at htake
    obtain ⟨k0, k1, k2, rfl⟩ := length_three (unescaperTable_key_length (k, r) hk)
    have hks := unescaperTable_key_shape _ hk
    have hes := unescaperTable_key_shape e he
    simp only [List.getD_cons_zero] at hks
    match a, ha, hlen with
    | [c], _, _ =>
      simp only [List.cons_append, List.nil_append, List.take_succ_cons, List.take_zero] at htake
      rw [← htake] at hes
      simp only [List.getD_cons_succ, List.getD_cons_zero] at hes
      exact hes.2.1 hks.1
    | [c, d], _, _ =>
      simp only [List.cons_append, List.nil_append, List.take_succ_cons, List.take_zero] at htake
      rw [← htake] at hes
      simp only [List.getD_cons_succ, List.getD_cons_zero] at hes
      exact hes.2.2 hks.1
    | _ :: _ :: _ :: _, _, h3 => exact absurd (by simp) h3

/-- Every occurrence of a key is replaced by its value, and the texts before
and after it are replaced on their own. -/
theorem unescaperReplace_append_key (k r : List Nat) (hk : (k, r) ∈ unescaperTable) (b : List Nat) :
    ∀ (n : Nat) (a : List Nat), a.length = n →
      unescaperReplace (a ++ (k ++ b)) = unescaperReplace a ++ (r ++ unescaperReplace b) := by
  intro n
  induction n using Nat.strong_induction_on with
  | _ n ih =>
    intro a han
    cases a with
    | nil =>
      obtain ⟨k0, k1, k2, hk3⟩ := length_three (unescaperTable_key_length (k, r) hk)
      have hk3a : k = [k0, k1, k2] := hk3
      have hl := replacerLookup_key k r b hk
      rw [List.nil_append, unescaperReplace_nil, List.nil_append]
      rw [hk3a] at hl ⊢
      rw [List.cons_append] at hl ⊢
      rw [unescaperReplace_cons_some _ _ _ hl]
      rfl
    | cons c a1 =>
      have hst := replacerLookup_before_key (c :: a1) k r b (by simp) hk
      rw [List.cons_append] at hst ⊢
      cases hl : replacerLookup unescaperTable (c :: a1) with
      | none =>
        rw [hl] at hst
        rw [unescaperReplace_cons_none _ _ hst, unescaperReplace_cons_none _ _ hl,
          ih a1.length (by rw [← han]; simp) a1 rfl]
        rfl
      | some e =>
        rw [hl] at hst
        obtain ⟨he, hp⟩ := replacerLookup_some _ _ e hl
        have hlen3 : 3 ≤ (c :: a1).length := by
          have := ((isPrefixOf_iff_take e.1 (c :: a1)).1 hp).1
          rwa [unescaperTable_key_length e he] at this
        rw [unescaperReplace_cons_some _ _ e hst, unescaperReplace_cons_some _ _ e hl,
          ← List.cons_append, List.drop_append_of_le_length hlen3,
          ih ((c :: a1).drop 3).length (by rw [← han, List.length_drop]; omega) _ rfl,
          List.append_assoc]

theorem keyFree_of_cons {c : Nat} {cs : List Nat} (h : KeyFree (c :: cs)) : KeyFree cs :=
  fun e he hin => h e he (List.infix_cons hin)

/-- A text free of keys is left unchanged. -/
theorem unescaperReplace_of_keyFree (s : List Nat) (h : KeyFree s) : unescaperReplace s = s := by
  induction s with
  | nil => rfl
  | cons c cs ih =>
    have hnone : replacerLookup unescaperTable (c :: cs) = none := by
      apply replacerLookup_eq_none
      intro e he
      rw [Bool.eq_false_iff]
      intro hp
      exact h e he ( List.IsPrefix.isInfix ( List.isPrefixOf_iff_prefix.1 hp))
    rw [unescaperReplace_cons_none c cs hnone, ih (keyFree_of_cons h)]

/-- When the output starts with a byte of a key, that byte was copied: the
input starts with it, nothing matched there, and the rest of the output is the
output of the rest of the input. -/
theorem unescaperReplace_head_copied (cs rest : List Nat) (y : Nat)
    (hy : ∃ e ∈ unescaperTable, y ∈ e.1) (h : unescaperReplace cs = y :: rest) :
    ∃ cs1, cs = y :: cs1 ∧ rest = unescaperReplace cs1 := by
  cases cs with
  | nil => simp [unescaperReplace_nil] at h
  | cons d cs1 =>
    cases hl : replacerLookup unescaperTable (d :: cs1) with
    | none =>
      rw [unescaperReplace_cons_none d cs1 hl] at h
      injection h with h1 h2
      exact ⟨cs1, by rw [h1], h2.symm⟩
    | some e =>
      exfalso
      obtain ⟨he, _⟩ := replacerLookup_some _ _ e hl
      rw [unescaperReplace_cons_some d cs1 e hl] at h
      obtain ⟨e1, he1, hy1⟩ := hy
      have hv := unescaperTable_value_length e he
      match hv2 : e.2, hv with
      | [v], _ =>
        rw [hv2] at h
        injection h with h1 _
        have := unescaperTable_values_not_in_keys e1 he1 e he y hy1
        rw [hv2, ← h1] at this
        exact this (List.mem_singleton_self v)

/-- The output of the unescaper contains no key of the table. -/
theorem keyFree_unescaperReplace :
    ∀ (n : Nat) (x : List Nat), x.length = n → KeyFree (unescaperReplace x) := by
  intro n
  induction n using Nat.strong_induction_on with
  | _ n ih =>
    intro x hxn
    cases x with
    | nil =>
      intro e he hin
      rw [unescaperReplace_nil, List.infix_nil] at hin
      have := unescaperTable_key_length e he
      rw [hin] at this
      simp at this
    | cons c cs =>
      cases hl : replacerLookup unescaperTable (c :: cs) with
      | none =>
        rw [unescaperReplace_cons_none c cs hl]
        have ihcs : KeyFree (unescaperReplace cs) := ih cs.length (by rw [← hxn]; simp) cs rfl
        intro e he hin
        rcases List.infix_cons_iff.1 hin with hpre | hin1
        · obtain ⟨k0, k1, k2, hk3⟩ := length_three (unescaperTable_key_length e he)
          obtain ⟨u, hu⟩ := hpre
          rw [hk3] at hu
          simp only [List.cons_append, List.nil_append, List.cons.injEq] at hu
          obtain ⟨hc, hrest⟩ := hu
          obtain ⟨cs1, hcs1, hrest1⟩ := unescaperReplace_head_copied cs (k2 :: u) k1
            ⟨e, he, by rw [hk3]; simp⟩ hrest.symm
          obtain ⟨cs2, hcs2, _⟩ := unescaperReplace_head_copied cs1 u k2
            ⟨e, he, by rw [hk3]; simp⟩ hrest1.symm
          have hfalse := replacerLookup_none _ _ hl e he
          rw [hcs1, hcs2, ← hc, hk3] at hfalse
          have htrue : [k0, k1, k2].isPrefixOf (k0 :: k1 :: k2 :: cs2) = true :=
            isPrefixOf_self_append [k0, k1, k2] cs2
          rw [htrue] at hfalse
          exact absurd hfalse (by simp)
        · exact ihcs e he hin1
      | some e0 =>
        obtain ⟨he0, _⟩ := replacerLookup_some _ _ e0 hl
        rw [unescaperReplace_cons_some c cs e0 hl]
        have ihd : KeyFree (unescaperReplace ((c :: cs).drop 3)) :=
          ih ((c :: cs).drop 3).length (by rw [← hxn, List.length_drop]; simp; omega) _ rfl
        have hv := unescaperTable_value_length e0 he0
        match hv2 : e0.2, hv with
        | [v], _ =>
          intro e he hin
          rcases List.infix_cons_iff.1 hin with hpre | hin1
          · obtain ⟨k0, k1, k2, hk3⟩ := length_three (unescaperTable_key_length e he)
            obtain ⟨u, hu⟩ := hpre
            rw [hk3] at hu
            simp only [List.cons_append, List.nil_append, List.cons.injEq] at hu
            have := unescaperTable_values_not_in_keys e he e0 he0 k0 (by rw [hk3]; simp)
            rw [hv2, hu.1] at this
            exact this (List.mem_singleton_self v)
          · exact ihd e he hin1

/-! ## Re-encoding a decoded byte string -/

theorem bigEndianValue_bytes (b0 b1 b2 b3 : Nat) (h0 : b0 < 256) (h1 : b1 < 256) (h2 : b2 < 256)
    (h3 : b3 < 256) :
    bigEndianValue [b0, b1, b2, b3] = b0 * 2 ^ 24 + b1 * 2 ^ 16 + b2 * 2 ^ 8 + b3 := by
  have hv := bigEndian_or (b0 * 2 ^ 24 + b1 * 2 ^ 16 + b2 * 2 ^ 8 + b3)
  have d0 : (b0 * 2 ^ 24 + b1 * 2 ^ 16 + b2 * 2 ^ 8 + b3) / 2 ^ 24 = b0 := by omega
  have d1 : (b0 * 2 ^ 24 + b1 * 2 ^ 16 + b2 * 2 ^ 8 + b3) / 2 ^ 16 % 256 = b1 := by omega
  have d2 : (b0 * 2 ^ 24 + b1 * 2 ^ 16 + b2 * 2 ^ 8 + b3) / 2 ^ 8 % 256 = b2 := by omega
  have d3 : (b0 * 2 ^ 24 + b1 * 2 ^ 16 + b2 * 2 ^ 8 + b3) % 256 = b3 := by omega
  rw [d0, d1, d2, d3] at hv
  have e0 : b0 % 2 ^ 32 * 2 ^ 24 % 2 ^ 32 = 2 ^ 24 * b0 := by omega
  have e1 : b1 % 2 ^ 32 * 2 ^ 16 % 2 ^ 32 = 2 ^ 16 * b1 := by omega
  have e2 : b2 % 2 ^ 32 * 2 ^ 8 % 2 ^ 32 = 2 ^ 8 * b2 := by omega
  have e3 : b3 % 2 ^ 32 = b3 := by omega
  simp only [bigEndianValue, List.getD_cons_zero, List.getD_cons_succ, toDiffChar,
    Nat.shiftLeft_eq, e0, e1, e2, e3]
  exact hv

theorem encodeChar_bigEndianValue (b0 b1 b2 b3 : Nat) (h0 : b0 < 256) (h1 : b1 < 256)
    (h2 : b2 < 256) (h3 : b3 < 256) :
    encodeChar (bigEndianValue [b0, b1, b2, b3]) = [b0, b1, b2, b3] := by
  rw [bigEndianValue_bytes b0 b1 b2 b3 h0 h1 h2 h3]
  have d0 : (b0 * 2 ^ 24 + b1 * 2 ^ 16 + b2 * 2 ^ 8 + b3) / 2 ^ 24 % 256 % 256 = b0 := by omega
  have d1 : (b0 * 2 ^ 24 + b1 * 2 ^ 16 + b2 * 2 ^ 8 + b3) / 2 ^ 16 % 256 % 256 = b1 := by omega
  have d2 : (b0 * 2 ^ 24 + b1 * 2 ^ 16 + b2 * 2 ^ 8 + b3) / 2 ^ 8 % 256 % 256 = b2 := by omega
  have d3 : (b0 * 2 ^ 24 + b1 * 2 ^ 16 + b2 * 2 ^ 8 + b3) % 256 % 256 = b3 := by omega
  simp only [encodeChar, toByte, Nat.shiftRight_eq_div_pow, and_255, d0, d1, d2, d3]

theorem length_four {l : List Nat} (h : l.length = 4) : ∃ x y z w, l = [x, y, z, w] := by
  match l, h with
  | [x, y, z, w], _ => exact ⟨x, y, z, w, rfl⟩

theorem groupAt_eq_getD (s : List Nat) (k : Nat) (h : k < s.length / 4) :
    groupAt s k
      = [s.getD (4 * k) 0, s.getD (4 * k + 1) 0, s.getD (4 * k + 2) 0, s.getD (4 * k + 3) 0] := by
  obtain ⟨x, y, z, w, hg⟩ := length_four (length_groupAt s k h)
  have hget : ∀ n, n < 4 → (groupAt s k)[n]? = s[4 * k + n]? := by
    intro n hn
    simp only [groupAt, List.getElem?_take, List.getElem?_drop, if_pos hn]
  have g0 := hget 0 (by omega)
  have g1 := hget 1 (by omega)
  have g2 := hget 2 (by omega)
  have g3 := hget 3 (by omega)
  rw [hg] at g0 g1 g2 g3
  simp only [List.getElem?_cons_zero, List.getElem?_cons_succ] at g0 g1 g2 g3
  rw [hg, List.getD_eq_getElem?_getD, List.getD_eq_getElem?_getD, List.getD_eq_getElem?_getD,
    List.getD_eq_getElem?_getD, ← g1, ← g2, ← g3]
  rw [show 4 * k = 4 * k + 0 from rfl, ← g0]
  rfl

theorem groupAt_subset (s : List Nat) (k : Nat) : ∀ b ∈ groupAt s k, b ∈ s := by
  intro b hb
  exact List.mem_of_mem_drop (List.mem_of_mem_take hb)

theorem flatMap_groupAt (s : List Nat) :
    ∀ n, 4 * n ≤ s.length → (List.range n).flatMap (groupAt s) = s.take (4 * n) := by
  intro n
  induction n with
  | zero => intro _; simp
  | succ n ih =>
    intro hn
    rw [List.range_succ, List.flatMap_append, ih (by omega), List.flatMap_singleton,
      show 4 * (n + 1) = 4 * n + 4 by omega, List.take_add]
    rfl

theorem encodeChar_bigEndianValue_groupAt (s : List Nat) (hs : ∀ b ∈ s, isByte b) (k : Nat)
    (h : k < s.length / 4) : encodeChar (bigEndianValue (groupAt s k)) = groupAt s k := by
  obtain ⟨x, y, z, w, hg⟩ := length_four (length_groupAt s k h)
  have hb : ∀ b ∈ [x, y, z, w], b < 256 := by
    intro b hb
    rw [← hg] at hb
    exact hs b (groupAt_subset s k b hb)
  rw [hg]
  exact encodeChar_bigEndianValue x y z w (hb x (by simp)) (hb y (by simp)) (hb z (by simp))
    (hb w (by simp))

/-- Decoding then encoding a byte string gives its longest prefix made of
whole 4-byte groups. -/
theorem charsToString_decoded (s : List Nat) (hs : ∀ b ∈ s, isByte b) :
    charsToString ((List.range (s.length / 4)).map (fun k => bigEndianValue (groupAt s k))) true
      = some (s.take (4 * (s.length / 4))) := by
  rw [charsToString_encode, ← flatMap_groupAt s (s.length / 4) (by omega)]
  refine congrArg some ?_
  rw [List.flatMap_def, List.flatMap_def, List.map_map]
  refine congrArg List.flatten (List.map_congr_left ?_)
  intro k hk
  exact encodeChar_bigEndianValue_groupAt s hs k (by simpa using hk)

theorem take_whole_groups_eq_iff (s : List Nat) :
    s.take (4 * (s.length / 4)) = s ↔ s.length % 4 = 0 := by
  constructor
  · intro h
    have := congrArg List.length h
    rw [List.length_take] at this
    omega
  · intro h
    exact List.take_of_length_le (by omega)

/-! ## Uniqueness of the result of a forward search -/

theorem isFirstOccurrenceFrom_unique {s p : List Nat} {lo : Nat} {r1 r2 : Int}
    (h1 : IsFirstOccurrenceFrom s p lo r1) (h2 : IsFirstOccurrenceFrom s p lo r2) : r1 = r2 := by
  rcases h1 with ⟨e1, n1⟩ | ⟨j1, e1, l1, o1, m1⟩ <;> rcases h2 with ⟨e2, n2⟩ | ⟨j2, e2, l2, o2, m2⟩
  · rw [e1, e2]
  · exact absurd o2 (n1 j2 l2)
  · exact absurd o1 (n2 j1 l1)
  · have : j1 = j2 := by
      by_contra hne
      rcases Nat.lt_or_gt_of_ne hne with hlt | hgt
      · exact m2 j1 l1 hlt o1
      · exact m1 j2 l2 hgt o2
    rw [e1, e2, this]

/-- The text search and the token search agree on equal sequences. -/
theorem indexOf_eq_charsIndexOf (s p : List Nat) (i : Int) :
    indexOf s p i = charsIndexOf s p i := by
  by_cases h : i > (s.length : Int) - 1
  · rw [indexOf_out_of_range s p i h, charsIndexOf_out_of_range s p i h]
  · obtain ⟨r1, hr1, hs1⟩ := indexOf_spec s p i (by omega)
    obtain ⟨r2, hr2, hs2⟩ := charsIndexOf_spec s p i (by omega)
    rw [hr1, hr2, isFirstOccurrenceFrom_unique hs1 hs2]

/-! ## The conversions between tokens, runes and text -/

theorem runesToCharsLoop_eq :
    ∀ (rest : List Int) (i : Nat) (chars : List DiffChar), chars.length = i + rest.length →
      runesToCharsLoop rest (i : Int) chars = some (chars.take i ++ rest.map runeToDiffChar) := by
  intro rest
  induction rest with
  | nil =>
    intro i chars h
    simp only [runesToCharsLoop, List.map_nil, List.append_nil]
    rw [List.take_of_length_le (by simp at h; omega)]
  | cons r rest ih =>
    intro i chars h
    have hlt : i < chars.length := by simp at h; omega
    have hnext : ((i : Int) + 1) = ((i + 1 : Nat) : Int) := by push_cast; ring
    simp only [runesToCharsLoop, goSet_nat chars i _ hlt, Option.bind_eq_bind, Option.some_bind,
      hnext]
    rw [ih (i + 1) _ (by simp at h ⊢; omega), take_succ_set chars i _ hlt]
    simp

theorem runesToChars_eq (runes : List Int) :
    runesToChars runes = some (runes.map runeToDiffChar) := by
  have := runesToCharsLoop_eq runes 0 (List.replicate runes.length 0) (by simp)
  simpa [runesToChars] using this

theorem charsToRunesLoop_eq :
    ∀ (rest : List DiffChar) (i : Nat) (runes : List Int), runes.length = i + rest.length →
      charsToRunesLoop rest (i : Int) runes = some (runes.take i ++ rest.map toRune) := by
  intro rest
  induction rest with
  | nil =>
    intro i runes h
    simp only [charsToRunesLoop, List.map_nil, List.append_nil]
    rw [List.take_of_length_le (by simp at h; omega)]
  | cons c rest ih =>
    intro i runes h
    have hlt : i < runes.length := by simp at h; omega
    have hnext : ((i : Int) + 1) = ((i + 1 : Nat) : Int) := by push_cast; ring
    simp only [charsToRunesLoop, goSet_nat runes i _ hlt, Option.bind_eq_bind, Option.some_bind,
      hnext]
    rw [ih (i + 1) _ (by simp at h ⊢; omega), take_succ_set runes i _ hlt]
    simp

theorem charsToRunes_eq (chars : List DiffChar) :
    charsToRunes chars = some (chars.map toRune) := by
  have := charsToRunesLoop_eq chars 0 (List.replicate chars.length 0) (by simp)
  simpa [charsToRunes] using this

theorem charsToString_text (chars : List DiffChar) :
    charsToString chars false = some (runesToString (chars.map toRune)) := by
  simp [charsToString, charsToRunes_eq]

theorem stringToChars_text (s : List Nat) :
    stringToChars s false = some ((stringToRunes s).map runeToDiffChar) := by
  simp [stringToChars, runesToChars_eq]

theorem validRune_runeError : validRune runeError := by decide

theorem validRune_sanitizeRune (r : Int) : validRune (sanitizeRune r) := by
  unfold sanitizeRune
  split
  · assumption
  · exact validRune_runeError

theorem encodeRune_eq_sanitized (r : Int) :
    encodeRune r = encodeScalar (sanitizeRune r).toNat := by
  unfold encodeRune sanitizeRune
  split <;> rfl

theorem runesToString_cons (r : Int) (rs : List Int) :
    runesToString (r :: rs) = encodeRune r ++ runesToString rs := rfl

theorem runesToString_append (xs ys : List Int) :
    runesToString (xs ++ ys) = runesToString xs ++ runesToString ys := by
  simp [runesToString]

/-- Reading the runes off the text that `string(runes)` wrote gives the runes
back, the invalid ones having become U+FFFD. -/
theorem stringToRunesLoop_runesToString :
    ∀ (runes : List Int) (fuel : Nat), (runesToString runes).length ≤ fuel →
      stringToRunesLoop fuel (runesToString runes) = runes.map sanitizeRune := by
  intro runes
  induction runes with
  | nil =>
    intro fuel _
    cases fuel <;> rfl
  | cons r rs ih =>
    intro fuel hfuel
    have hv := validRune_sanitizeRune r
    have hn : (((sanitizeRune r).toNat : Nat) : Int) = sanitizeRune r :=
      Int.toNat_of_nonneg hv.1
    have hdec := decodeRuneInString_encodeScalar (sanitizeRune r).toNat (runesToString rs)
      (by rw [hn]; exact hv)
    have hpos := length_encodeScalar_pos (sanitizeRune r).toNat
    rw [runesToString_cons, encodeRune_eq_sanitized] at hfuel ⊢
    rw [List.length_append] at hfuel
    obtain ⟨f, rfl⟩ : ∃ f, fuel = f + 1 := ⟨fuel - 1, by omega⟩
    cases hE : encodeScalar (sanitizeRune r).toNat ++ runesToString rs with
    | nil =>
      have := congrArg List.length hE
      rw [List.length_append, List.length_nil] at this
      omega
    | cons c cs =>
      rw [hE] at hdec
      simp only [stringToRunesLoop, hdec, Int.toNat_ofNat, List.map_cons, hn]
      rw [← hE, List.drop_left' rfl, ih f (by omega)]

theorem stringToRunes_runesToString (runes : List Int) :
    stringToRunes (runesToString runes) = runes.map sanitizeRune :=
  stringToRunesLoop_runesToString runes _ (le_refl _)

theorem sanitizeRune_valid (r : Int) (h : validRune r) : sanitizeRune r = r := by
  simp only [sanitizeRune, if_pos h]

theorem runeToDiffChar_valid (r : Int) (h : validRune r) :
    ((runeToDiffChar r : Nat) : Int) = r ∧ toRune (runeToDiffChar r) = r := by
  obtain ⟨h0, h1, h2⟩ := h
  have hlt : r < 4294967296 := by omega
  have hm : r % 2 ^ 32 = r := Int.emod_eq_of_lt h0 (by norm_num; omega)
  have hr : runeToDiffChar r = r.toNat := by unfold runeToDiffChar; rw [hm]
  have hc : ((r.toNat : Nat) : Int) = r := Int.toNat_of_nonneg h0
  refine ⟨by rw [hr, hc], ?_⟩
  have h3 : r.toNat % 2 ^ 32 = r.toNat := by omega
  have h4 : r.toNat < 2 ^ 31 := by omega
  unfold toRune
  rw [hr, h3, if_pos h4]
  exact hc

theorem validScalar_iff (c : Nat) : validScalar c ↔ c ≤ 1114111 ∧ ¬ (55296 ≤ c ∧ c ≤ 57343) :=
  Iff.rfl

theorem validRune_iff (r : Int) :
    validRune r ↔ 0 ≤ r ∧ r ≤ 1114111 ∧ ¬ (55296 ≤ r ∧ r ≤ 57343) := Iff.rfl

theorem runeToDiffChar_sanitize_toRune (c : Nat) (h : c < 2 ^ 32) :
    runeToDiffChar (sanitizeRune (toRune c)) = if validScalar c then c else 0xFFFD := by
  have hmod : c % 2 ^ 32 = c := by omega
  by_cases hs : validScalar c
  · have hs1 := (validScalar_iff c).1 hs
    have hlt : c < 2 ^ 31 := by omega
    have htr : toRune c = (c : Int) := by
      unfold toRune; rw [hmod, if_pos hlt]
    have hv : validRune ((c : Nat) : Int) := by
      rw [validRune_iff]; omega
    rw [htr, sanitizeRune_valid _ hv, if_pos hs]
    have := (runeToDiffChar_valid (c : Int) hv).1
    exact_mod_cast this
  · have hs1 := (validScalar_iff c).not.1 hs
    have hv : ¬ validRune (toRune c) := by
      rw [validRune_iff]
      by_cases hlt : c < 2 ^ 31
      · have htr : toRune c = (c : Int) := by unfold toRune; rw [hmod, if_pos hlt]
        rw [htr]; omega
      · have htr : toRune c = (c : Int) - 4294967296 := by
          unfold toRune; rw [hmod, if_neg hlt]; norm_num
        rw [htr]; omega
    simp only [sanitizeRune, if_neg hv, if_neg hs]
    decide

theorem helloAccent_eq : helloAccent = ascii "h" ++ encodeScalar 0xE9 ++ ascii "llo world" := by
  decide

/-- A valid UTF-8 text splits at its codepoint number `k`: the text before it,
of length `codepointStart`, the encoding of the codepoint, ending at
`codepointEnd`, and the text after it. -/
theorem runesToString_split (runes : List Int) (k : Nat) (hk : k < runes.length)
    (hv : ∀ r ∈ runes, validRune r) :
    ∃ (front post : List Nat) (n : Nat), validRune (n : Int) ∧
      runesToString runes = front ++ encodeScalar n ++ post ∧
      codepointStart runes k = front.length ∧
      codepointEnd runes k = front.length + (encodeScalar n).length := by
  have hr : validRune runes[k] := hv _ (List.getElem_mem _)
  have hn : ((runes[k].toNat : Nat) : Int) = runes[k] := Int.toNat_of_nonneg hr.1
  have henc : encodeRune runes[k] = encodeScalar runes[k].toNat := encodeRune_valid _ hr
  have hsplit : runes = runes.take k ++ runes[k] :: runes.drop (k + 1) := by
    rw [ List.getElem_cons_drop, List.take_append_drop]
  have htake : runes.take (k + 1) = runes.take k ++ [runes[k]] := by
    rw [List.take_succ, List.getElem?_eq_getElem hk]; rfl
  refine ⟨runesToString (runes.take k), runesToString (runes.drop (k + 1)), runes[k].toNat,
    by rw [hn]; exact hr, ?_, rfl, ?_⟩
  · conv_lhs => rw [hsplit]
    rw [runesToString_append, runesToString_cons, henc, List.append_assoc]
  · unfold codepointEnd
    rw [htake, runesToString_append, List.length_append, runesToString_cons, henc]
    simp [runesToString]

/-! ## Claims C1, C2 and C4: the packed encoding -/

/-- C1. Decoding the packed encoding gives back the sequence: for every
sequence `seq` of 32-bit tokens, `stringToChars(charsToString(seq, true), true)`
returns `seq` (and neither call panics). -/
theorem C1_decode_encode (seq : List DiffChar) (h : ∀ c ∈ seq, isDiffChar c) :
    (charsToString seq true).bind (fun s => stringToChars s true) = some seq := by
  rw [charsToString_encode, Option.some_bind, stringToChars_decode, length_flatMap_encodeChar]
  have hn : 4 * seq.length / 4 = seq.length := by omega
  rw [hn]
  congr 1
  apply List.ext_getElem
  · simp
  · intro k h1 h2
    have hk : k < seq.length := by simpa using h1
    simp only [List.getElem_map, List.getElem_range]
    rw [groupAt_flatMap_encodeChar seq k hk, List.getD_eq_getElem seq 0 hk]
    exact bigEndianValue_encodeChar _ (h _ (List.getElem_mem _))

/-- Witness of C1 at the sequence `[0x01020304, 0xFFFFFFFF, 0]`. -/
theorem C1_decode_encode_witness :
    (∀ c ∈ [0x01020304, 0xFFFFFFFF, 0], isDiffChar c) ∧
    (charsToString [0x01020304, 0xFFFFFFFF, 0] true).bind (fun s => stringToChars s true)
      = some [0x01020304, 0xFFFFFFFF, 0] :=
  ⟨by decide, C1_decode_encode [0x01020304, 0xFFFFFFFF, 0] (by decide)⟩

/-- C2, counterexample. The byte string `[1, 2, 3, 4, 5]` has a length that is
not a multiple of 4, and the packed decode does not fail on it: it returns the
single token `0x01020304`, the fifth byte being dropped. -/
theorem C2_decode_partial_group_counterexample :
    [1, 2, 3, 4, 5].length % 4 ≠ 0 ∧ stringToChars [1, 2, 3, 4, 5] true = some [0x01020304] := by
  decide

/-- C2, amended. For every byte string `s` whose length is not a multiple of
4, the packed decode `stringToChars(s, true)` returns a token sequence: it has
`len(s) / 4` tokens and is the decoding of the longest prefix of `s` made of
whole 4-byte groups, the trailing partial group being ignored. -/
theorem C2_decode_partial_group (s : List Nat) (h : s.length % 4 ≠ 0) :
    ∃ chars, stringToChars s true = some chars ∧ chars.length = s.length / 4 ∧
      chars.length * 4 < s.length ∧
      stringToChars (s.take (4 * (s.length / 4))) true = some chars := by
  refine ⟨_, stringToChars_decode s, by simp, by simp; omega, ?_⟩
  rw [stringToChars_decode]
  have hl : (s.take (4 * (s.length / 4))).length / 4 = s.length / 4 := by
    rw [List.length_take]; omega
  rw [hl]
  refine congrArg some (List.map_congr_left ?_)
  intro k hk
  rw [groupAt_take s _ k (by simpa using hk)]

/-- Witness of C2 (amended) at the byte string `[1, 2, 3, 4, 5]`. -/
theorem C2_decode_partial_group_witness :
    ∃ chars, stringToChars [1, 2, 3, 4, 5] true = some chars ∧
      chars.length = [1, 2, 3, 4, 5].length / 4 ∧ chars.length * 4 < [1, 2, 3, 4, 5].length ∧
      stringToChars ([1, 2, 3, 4, 5].take (4 * ([1, 2, 3, 4, 5].length / 4))) true = some chars :=
  C2_decode_partial_group [1, 2, 3, 4, 5] (by decide)

/-- C4. For every token sequence `seq`, `charsToString(seq, true)` is the
concatenation, in order, of the 4-byte big-endian representation
`[c>>24 & 0xFF, c>>16 & 0xFF, c>>8 & 0xFF, c & 0xFF]` of each token `c`; each of
these bytes is the corresponding base-256 digit of `c`; the length of the
result is `4 * len(seq)`; and `[0x01020304]` encodes to `[1, 2, 3, 4]`. -/
theorem C4_encode_big_endian (seq : List DiffChar) :
    charsToString seq true = some (seq.flatMap bigEndian4) ∧
    (∀ c, bigEndian4 c
      = [c / 2 ^ 24 % 256, c / 2 ^ 16 % 256, c / 2 ^ 8 % 256, c % 256]) ∧
    (seq.flatMap bigEndian4).length = 4 * seq.length ∧
    charsToString [0x01020304] true = some [0x01, 0x02, 0x03, 0x04] := by
  have hfun : encodeChar = bigEndian4 := funext encodeChar_eq_bigEndian4
  have hdigits : ∀ c, bigEndian4 c
      = [c / 2 ^ 24 % 256, c / 2 ^ 16 % 256, c / 2 ^ 8 % 256, c % 256] := by
    intro c
    simp only [bigEndian4, and_255, Nat.shiftRight_eq_div_pow]
  refine ⟨?_, hdigits, ?_, ?_⟩
  · rw [charsToString_encode, hfun]
  · rw [← hfun]; exact length_flatMap_encodeChar seq
  · rw [charsToString_encode, hfun, List.flatMap_singleton, hdigits]
    norm_num

/-! ## Claim C3: the window of `lastIndexOf` inside the string -/

/-- C3, counterexample. The haystack `"€"` is the valid UTF-8 text
`[0xE2, 0x82, 0xAC]`, a single codepoint; byte 1 lies inside it, so the offset
just past the codepoint that contains byte 1 is 3, and the needle `"€"` occurs
in `s[0:3]` at offset 0. Yet `lastIndexOf("€", "€", 1)` is `-1`: the window the
code searches is `s[0:2]`, which ends inside the codepoint. -/
theorem C3_lastIndexOf_codepoint_window_counterexample :
    validRune 0x20AC ∧ encodeRune 0x20AC = [0xE2, 0x82, 0xAC] ∧
    stringsLastIndex (List.take 3 [0xE2, 0x82, 0xAC]) [0xE2, 0x82, 0xAC] = 0 ∧
    lastIndexOf [0xE2, 0x82, 0xAC] [0xE2, 0x82, 0xAC] 1 = some (-1) ∧
    lastIndexOf [0xE2, 0x82, 0xAC] [0xE2, 0x82, 0xAC] 1
      ≠ some (stringsLastIndex (List.take 3 [0xE2, 0x82, 0xAC]) [0xE2, 0x82, 0xAC]) := by
  decide

/-- C3, amended. Let the haystack be `s = front ++ c ++ post`, where `c` is the
UTF-8 encoding of a valid codepoint `r` (every codepoint of a valid UTF-8 text
splits the text in this way), and let `i` be the offset of the first byte of
`c` or of its last byte. Then, for every needle `p`, `lastIndexOf(s, p, i)`
returns the last occurrence of `p` inside `s[0:e]` (or `-1` if there is none),
where `e = len(front) + len(c)` is the byte offset just past that codepoint. -/
theorem C3_lastIndexOf_codepoint_window (front post p : List Nat) (r : Int) (i : Nat)
    (hv : validRune r)
    (hi : i = front.length ∨ i + 1 = front.length + (encodeRune r).length) :
    ∃ v, lastIndexOf (front ++ encodeRune r ++ post) p (i : Int) = some v ∧
      IsLastOccurrence
        ((front ++ encodeRune r ++ post).take (front.length + (encodeRune r).length)) p v := by
  have hr : ((r.toNat : Nat) : Int) = r := Int.toNat_of_nonneg hv.1
  have hv1 : validRune ((r.toNat : Nat) : Int) := by rw [hr]; exact hv
  rw [encodeRune_valid r hv, take_codepoint]
  refine ⟨stringsLastIndex (front ++ encodeScalar r.toNat) p, ?_, stringsLastIndex_spec _ p⟩
  rcases hi with hi | hi
  · rw [hi]
    exact lastIndexOf_first_byte front post p r.toNat hv1
  · rw [encodeRune_valid r hv] at hi
    rw [show i = front.length + (encodeScalar r.toNat).length - 1 by omega]
    exact lastIndexOf_last_byte front post p r.toNat hv1

/-- Witness of C3 (amended): the haystack `"héllo world"`, split as `"h"`, `"é"`
(U+00E9) and `"llo world"`, the needle `"llo"`, and `i = 2`, the last byte of
`"é"`. -/
theorem C3_lastIndexOf_codepoint_window_witness :
    validRune 0xE9 ∧
    ((2 : Nat) = (ascii "h").length ∨ 2 + 1 = (ascii "h").length + (encodeRune 0xE9).length) ∧
    ∃ v, lastIndexOf (ascii "h" ++ encodeRune 0xE9 ++ ascii "llo world") (ascii "llo")
        ((2 : Nat) : Int) = some v ∧
      IsLastOccurrence
        ((ascii "h" ++ encodeRune 0xE9 ++ ascii "llo world").take
          ((ascii "h").length + (encodeRune 0xE9).length)) (ascii "llo") v :=
  ⟨by decide, by decide,
    C3_lastIndexOf_codepoint_window (ascii "h") (ascii "llo world") (ascii "llo") 0xE9 2
      (by decide) (by decide)⟩

/-! ## Claims C5 and C6: `indexOf` -/

/-- C5. For every haystack `s`, needle `p` and integer `i`: `indexOf(s, p, i)`
is `-1` when `i > len(s) - 1`; otherwise it is the least byte offset
`j ≥ max(i, 0)` with `j + len(p) ≤ len(s)` and `s[j : j+len(p)] = p`, and `-1`
when no such `j` exists. The call always returns, a non-negative result `r`
satisfies `r ≥ i`, and `indexOf("hello world", "world", 0) = 6`. -/
theorem C5_indexOf_first_occurrence (s p : List Nat) (i : Int) :
    (if i > (s.length : Int) - 1 then indexOf s p i = some (-1)
     else ∃ r, indexOf s p i = some r ∧ IsFirstOccurrenceFrom s p (max i 0).toNat r) ∧
    (∃ r, indexOf s p i = some r ∧ (r = -1 ∨ (0 ≤ r ∧ i ≤ r))) ∧
    indexOf (ascii "hello world") (ascii "world") 0 = some 6 := by
  have hmax : (max i 0).toNat = i.toNat := by omega
  refine ⟨?_, ?_, by decide⟩
  · split
    · next h => exact indexOf_out_of_range s p i h
    · next h =>
      rw [hmax]
      exact indexOf_spec s p i (by omega)
  · by_cases h : i > (s.length : Int) - 1
    · exact ⟨-1, indexOf_out_of_range s p i h, Or.inl rfl⟩
    · obtain ⟨r, hr, hspec⟩ := indexOf_spec s p i (by omega)
      refine ⟨r, hr, ?_⟩
      rcases isFirstOccurrenceFrom_bounds hspec with h1 | h1
      · exact Or.inl h1
      · right; omega

/-- C6, counterexample. With the empty haystack and the empty needle,
`indexOf("", "", -1)` is `0` while `indexOf("", "", 0)` is `-1`. -/
theorem C6_indexOf_nonpositive_counterexample :
    (-1 : Int) ≤ 0 ∧ indexOf [] [] (-1) = some 0 ∧ indexOf [] [] 0 = some (-1) ∧
      indexOf [] [] (-1) ≠ indexOf [] [] 0 := by
  decide

/-- C6, amended. For every haystack `s` and needle `p` that are not both
empty, and every integer `i ≤ 0`, `indexOf(s, p, i) = indexOf(s, p, 0)`. -/
theorem C6_indexOf_nonpositive (s p : List Nat) (i : Int) (hne : s ≠ [] ∨ p ≠ [])
    (hi : i ≤ 0) : indexOf s p i = indexOf s p 0 := by
  cases s with
  | nil =>
    have hp : p ≠ [] := by
      rcases hne with h | h
      · exact absurd rfl h
      · exact h
    have h0 : indexOf [] p 0 = some (-1) := indexOf_out_of_range [] p 0 (by simp)
    rw [h0]
    by_cases h : i > ((([] : List Nat).length : Int)) - 1
    · exact indexOf_out_of_range [] p i h
    · rw [indexOf_nonpos [] p i h hi]
      cases p with
      | nil => exact absurd rfl hp
      | cons c cs => rfl
  | cons c cs =>
    have hlen : ¬ (0 : Int) > (((c :: cs).length : Nat) : Int) - 1 := by
      simp only [List.length_cons]; omega
    have hlen1 : ¬ i > (((c :: cs).length : Nat) : Int) - 1 := by omega
    rw [indexOf_nonpos _ p i hlen1 hi, indexOf_nonpos _ p 0 hlen (le_refl _)]

/-- Witness of C6 (amended): the empty haystack, the needle `"x"`, `i = -1`. -/
theorem C6_indexOf_nonpositive_witness :
    (([] : List Nat) ≠ [] ∨ [120] ≠ []) ∧ (-1 : Int) ≤ 0 ∧
      indexOf [] [120] (-1) = indexOf [] [120] 0 :=
  ⟨by decide, by decide, C6_indexOf_nonpositive [] [120] (-1) (by decide) (by decide)⟩

/-! ## Claims C7, C8 and C9: the token search -/

/-- C7. For every token haystack `t`, token needle `p` and integer `i`:
`charsIndexOf(t, p, i)` is `-1` when `i > len(t) - 1`; otherwise it is the least
position `j ≥ max(i, 0)` with `j + len(p) ≤ len(t)` and `t[j : j+len(p)]` equal
to `p`, and `-1` when no such `j` exists. With the tokens `A, B, C, D` taken as
`65, 66, 67, 68`: `charsIndexOf([A,B,C,D], [C,D], 0) = 2` and
`charsIndexOf([A,B], [A,B,C], 0) = -1`. -/
theorem C7_charsIndexOf_first_occurrence (t p : List DiffChar) (i : Int) :
    (if i > (t.length : Int) - 1 then charsIndexOf t p i = some (-1)
     else ∃ r, charsIndexOf t p i = some r ∧ IsFirstOccurrenceFrom t p (max i 0).toNat r) ∧
    charsIndexOf [65, 66, 67, 68] [67, 68] 0 = some 2 ∧
    charsIndexOf [65, 66] [65, 66, 67] 0 = some (-1) := by
  have hmax : (max i 0).toNat = i.toNat := by omega
  refine ⟨?_, by decide, by decide⟩
  split
  · next h => exact charsIndexOf_out_of_range t p i h
  · next h =>
    rw [hmax]
    exact charsIndexOf_spec t p i (by omega)

/-- C8. For every token haystack `t`, token needle `p` and integer `i`, if
`len(p) > len(t) - i` then `charsIndexOf(t, p, i) = -1`. -/
theorem C8_charsIndexOf_needle_too_long (t p : List DiffChar) (i : Int)
    (h : (p.length : Int) > (t.length : Int) - i) : charsIndexOf t p i = some (-1) := by
  by_cases hr : i > (t.length : Int) - 1
  · exact charsIndexOf_out_of_range t p i hr
  · obtain ⟨r, hr1, hspec⟩ := charsIndexOf_spec t p i (by omega)
    rcases isFirstOccurrenceFrom_bounds hspec with h1 | h1
    · rw [hr1, h1]
    · exfalso; omega

/-- Witness of C8: the haystack `[65, 66]`, the needle `[65, 66, 67]`, `i = 0`. -/
theorem C8_charsIndexOf_needle_too_long_witness :
    (([65, 66, 67] : List DiffChar).length : Int) > (([65, 66] : List DiffChar).length : Int) - 0 ∧
      charsIndexOf [65, 66] [65, 66, 67] 0 = some (-1) :=
  ⟨by decide, C8_charsIndexOf_needle_too_long [65, 66] [65, 66, 67] 0 (by decide)⟩

/-- C9. For all token sequences `a` and `b`, `charsEqual(a, b)` returns, and
returns true if and only if `a` and `b` have the same length and the same
token at every position, that is if and only if `a = b`; when the lengths
differ the result is false. -/
theorem C9_charsEqual_iff (a b : List DiffChar) :
    ∃ r, charsEqual a b = some r ∧
      (r = true ↔ a.length = b.length ∧ ∀ k, k < a.length → a[k]? = b[k]?) ∧
      (r = true ↔ a = b) ∧
      (a.length ≠ b.length → r = false) := by
  refine ⟨decide (a = b), charsEqual_eq a b, ?_, by simp, ?_⟩
  · rw [decide_eq_true_iff]
    constructor
    · intro h; subst h; exact ⟨rfl, fun _ _ => rfl⟩
    · intro h
      apply List.ext_getElem? 
      intro k
      by_cases hk : k < a.length
      · exact h.2 k hk
      · rw [List.getElem?_eq_none (by omega), List.getElem?_eq_none (by omega)]
  · intro h
    have : a ≠ b := fun e => h (by rw [e])
    simp [this]

/-! ## Claim C10: `lastIndexOf` past the end -/

/-- C10. For every haystack `s`, needle `p` and index `i ≥ len(s)`,
`lastIndexOf(s, p, i)` searches the whole string: it is the greatest offset `j`
with `j + len(p) ≤ len(s)` and `s[j : j+len(p)] = p`, or `-1` if there is none.
For example `lastIndexOf("hello world", "hello", 11) = 0`. -/
theorem C10_lastIndexOf_whole_string (s p : List Nat) (i : Int) (h : i ≥ (s.length : Int)) :
    (∃ r, lastIndexOf s p i = some r ∧ IsLastOccurrence s p r) ∧
    lastIndexOf (ascii "hello world") (ascii "hello") 11 = some 0 :=
  ⟨⟨_, lastIndexOf_whole s p i h, stringsLastIndex_spec s p⟩, by decide⟩

/-- Witness of C10: the haystack `"hello world"`, the needle `"o"`, `i = 12`. -/
theorem C10_lastIndexOf_whole_string_witness :
    (12 : Int) ≥ ((ascii "hello world").length : Int) ∧
    ((∃ r, lastIndexOf (ascii "hello world") (ascii "o") 12 = some r ∧
        IsLastOccurrence (ascii "hello world") (ascii "o") r) ∧
      lastIndexOf (ascii "hello world") (ascii "hello") 11 = some 0) :=
  ⟨by decide, C10_lastIndexOf_whole_string (ascii "hello world") (ascii "o") 12 (by decide)⟩

/-! ## Claims C11, C12, C13 and C18: the unescaper -/

/-- C11. The unescaper replaces every occurrence of every table key once, in a
single pass from left to right: for all texts `a` and `b` and every table entry
`(k, r)`, `unescaper.Replace(a + k + b) = unescaper.Replace(a) + r +
unescaper.Replace(b)`. In particular `unescaper.Replace("%2B%24") = "+$"`. -/
theorem C11_unescaper_replaces_key (a b k r : List Nat) (hk : (k, r) ∈ unescaperTable) :
    unescaperReplace (a ++ k ++ b) = unescaperReplace a ++ r ++ unescaperReplace b ∧
    unescaperReplace (ascii "%2B%24") = ascii "+$" := by
  refine ⟨?_, by decide⟩
  rw [List.append_assoc, List.append_assoc]
  exact unescaperReplace_append_key k r hk b a.length a rfl

/-- Witness of C11: `a = "x%7"`, the entry `("%2B", "+")`, `b = "%24y"`. -/
theorem C11_unescaper_replaces_key_witness :
    (ascii "%2B", ascii "+") ∈ unescaperTable ∧
    (unescaperReplace (ascii "x%7" ++ ascii "%2B" ++ ascii "%24y")
        = unescaperReplace (ascii "x%7") ++ ascii "+" ++ unescaperReplace (ascii "%24y") ∧
      unescaperReplace (ascii "%2B%24") = ascii "+$") :=
  ⟨by decide,
    C11_unescaper_replaces_key (ascii "x%7") (ascii "%24y") (ascii "%2B") (ascii "+") (by decide)⟩

/-- C12. The table has 17 keys, and every text that contains none of them as a
substring is returned unchanged by the unescaper. -/
theorem C12_unescaper_key_free_unchanged (s : List Nat) (h : KeyFree s) :
    unescaperTable.length = 17 ∧ unescaperReplace s = s :=
  ⟨rfl, unescaperReplace_of_keyFree s h⟩

/-- Witness of C12: the text `"a%3f%25%2b%7"`, whose escapes are either not in
the table or differ from a key in the case of a hex digit. -/
theorem C12_unescaper_key_free_unchanged_witness :
    KeyFree (ascii "a%3f%25%2b%7") ∧
    (unescaperTable.length = 17 ∧
      unescaperReplace (ascii "a%3f%25%2b%7") = ascii "a%3f%25%2b%7") :=
  ⟨by unfold KeyFree; decide,
    C12_unescaper_key_free_unchanged (ascii "a%3f%25%2b%7") (by unfold KeyFree; decide)⟩

/-- C13, the code at the inputs of the claim. The table is keyed on the
uppercase `"%3F"`: `unescaper.Replace("%3F")` is `"?"` and
`unescaper.Replace("%3f")` is `"%3f"`, the opposite of what the doc comment on
`unescaper` states; `unescaper.Replace("%24")` is `"$"`. -/
theorem C13_unescaper_case :
    unescaperReplace (ascii "%3F") = ascii "?" ∧
    unescaperReplace (ascii "%3f") = ascii "%3f" ∧
    unescaperReplace (ascii "%24") = ascii "$" := by
  decide

/-- C18. The unescaper is idempotent on every input: for every text `x`, the
output `unescaper.Replace(x)` contains no table key as a substring, and
`unescaper.Replace(unescaper.Replace(x)) = unescaper.Replace(x)`. -/
theorem C18_unescaper_idempotent (x : List Nat) :
    KeyFree (unescaperReplace x) ∧
    unescaperReplace (unescaperReplace x) = unescaperReplace x :=
  ⟨keyFree_unescaperReplace x.length x rfl,
    unescaperReplace_of_keyFree _ (keyFree_unescaperReplace x.length x rfl)⟩

/-! ## Claims C15 and C20: the two search families -/

/-- C15. The text and token search families agree: for all byte strings `s`
and `p` and every integer `i`, `indexOf(s, p, i) = charsIndexOf(S, P, i)`, where
`S` and `P` are the token sequences holding the byte values of `s` and `p`, one
token per byte. -/
theorem C15_text_and_token_search_agree (s p : List Nat) (i : Int) (hs : ∀ b ∈ s, isByte b)
    (hp : ∀ b ∈ p, isByte b) :
    indexOf s p i = charsIndexOf (s.map toDiffChar) (p.map toDiffChar) i := by
  have hid : ∀ l : List Nat, (∀ b ∈ l, isByte b) → l.map toDiffChar = l := by
    intro l hl
    have : l.map toDiffChar = l.map id := by
      apply List.map_congr_left
      intro b hb
      have hb1 : b < 256 := hl b hb
      show b % 2 ^ 32 = b
      omega
    rw [this, List.map_id]
  rw [hid s hs, hid p hp]
  exact indexOf_eq_charsIndexOf s p i

/-- Witness of C15: the haystack `"hello world"`, the needle `"o"`, `i = 5`. -/
theorem C15_text_and_token_search_agree_witness :
    (∀ b ∈ ascii "hello world", isByte b) ∧ (∀ b ∈ ascii "o", isByte b) ∧
    indexOf (ascii "hello world") (ascii "o") 5
      = charsIndexOf ((ascii "hello world").map toDiffChar) ((ascii "o").map toDiffChar) 5 :=
  ⟨by decide, by decide,
    C15_text_and_token_search_agree (ascii "hello world") (ascii "o") 5 (by decide) (by decide)⟩

/-- C20. `charsIndexOf` never reads out of bounds: for every token haystack
`t`, token needle `p` and integer `i`, every slice and every element access of
`charsIndexOf`, `charsIndex` and `charsEqual` is within bounds, so each of the
three calls returns a value; the integer `charsIndexOf` returns is `-1` or an
offset `r ≥ 0` with `r + len(p) ≤ len(t)`. -/
theorem C20_charsIndexOf_never_panics (t p : List DiffChar) (i : Int) :
    (∃ r, charsIndexOf t p i = some r ∧
      (r = -1 ∨ (0 ≤ r ∧ r + (p.length : Int) ≤ (t.length : Int)))) ∧
    (∃ r, charsIndex t p = some r) ∧
    (∃ r, charsEqual t p = some r) := by
  refine ⟨?_, ?_, ⟨_, charsEqual_eq t p⟩⟩
  · by_cases h : i > (t.length : Int) - 1
    · exact ⟨-1, charsIndexOf_out_of_range t p i h, Or.inl rfl⟩
    · obtain ⟨r, hr, hspec⟩ := charsIndexOf_spec t p i (by omega)
      refine ⟨r, hr, ?_⟩
      rcases isFirstOccurrenceFrom_bounds hspec with h1 | h1
      · exact Or.inl h1
      · right; omega
  · obtain ⟨r, hr, _⟩ := charsIndex_spec t p
    exact ⟨r, hr⟩

/-! ## Claim C17: decoding, then encoding -/

/-- C17. For every byte string `s`, of any length, `stringToChars(s, true)` has
exactly `len(s) / 4` tokens, the `k`-th being the big-endian value of the bytes
`4k … 4k+3`, and encoding them again gives the longest prefix of `s` whose
length is a multiple of 4; this prefix is `s` exactly when `len(s)` is a
multiple of 4. -/
theorem C17_encode_decode_prefix (s : List Nat) (hs : ∀ b ∈ s, isByte b) :
    ∃ chars, stringToChars s true = some chars ∧ chars.length = s.length / 4 ∧
      (∀ k, k < s.length / 4 →
        chars[k]? = some (s.getD (4 * k) 0 * 2 ^ 24 + s.getD (4 * k + 1) 0 * 2 ^ 16
          + s.getD (4 * k + 2) 0 * 2 ^ 8 + s.getD (4 * k + 3) 0)) ∧
      charsToString chars true = some (s.take (4 * (s.length / 4))) ∧
      (s.take (4 * (s.length / 4)) = s ↔ s.length % 4 = 0) := by
  refine ⟨_, stringToChars_decode s, by simp, ?_, charsToString_decoded s hs,
    take_whole_groups_eq_iff s⟩
  intro k hk
  have hb : ∀ n, s.getD n 0 < 256 := by
    intro n
    rw [List.getD_eq_getElem?_getD]
    cases hn : s[n]? with
    | none => simp
    | some b => exact hs b (List.getElem?_mem hn)
  rw [List.getElem?_map, List.getElem?_range hk, Option.map_some', groupAt_eq_getD s k hk,
    bigEndianValue_bytes _ _ _ _ (hb _) (hb _) (hb _) (hb _)]

/-- Witness of C17: the byte string `[1, 2, 3, 4, 5]`. -/
theorem C17_encode_decode_prefix_witness :
    (∀ b ∈ [1, 2, 3, 4, 5], isByte b) ∧
    ∃ chars, stringToChars [1, 2, 3, 4, 5] true = some chars ∧
      chars.length = [1, 2, 3, 4, 5].length / 4 ∧
      (∀ k, k < [1, 2, 3, 4, 5].length / 4 →
        chars[k]? = some ([1, 2, 3, 4, 5].getD (4 * k) 0 * 2 ^ 24
          + [1, 2, 3, 4, 5].getD (4 * k + 1) 0 * 2 ^ 16
          + [1, 2, 3, 4, 5].getD (4 * k + 2) 0 * 2 ^ 8 + [1, 2, 3, 4, 5].getD (4 * k + 3) 0)) ∧
      charsToString chars true = some ([1, 2, 3, 4, 5].take (4 * ([1, 2, 3, 4, 5].length / 4))) ∧
      ([1, 2, 3, 4, 5].take (4 * ([1, 2, 3, 4, 5].length / 4)) = [1, 2, 3, 4, 5]
        ↔ [1, 2, 3, 4, 5].length % 4 = 0) :=
  ⟨by decide, C17_encode_decode_prefix [1, 2, 3, 4, 5] (by decide)⟩

/-! ## Claims C14 and C19: tokens and text -/

/-- C14. For every valid UTF-8 text `s`, with codepoints `runes`,
`stringToChars(s, false)` has one token per codepoint of `s`, each equal to
that codepoint's value, and converting these tokens back gives `s`:
`charsToString(stringToChars(s, false), false) = s`. -/
theorem C14_text_tokens_roundtrip (s : List Nat) (runes : List Int) (h : IsUTF8Of s runes) :
    ∃ chars, stringToChars s false = some chars ∧ chars.map Int.ofNat = runes ∧
      charsToString chars false = some s := by
  obtain ⟨hv, hs⟩ := h
  have hsan : runes.map sanitizeRune = runes := by
    have : ∀ r ∈ runes, sanitizeRune r = id r := fun r hr => sanitizeRune_valid r (hv r hr)
    rw [List.map_congr_left this, List.map_id]
  refine ⟨runes.map runeToDiffChar, ?_, ?_, ?_⟩
  · rw [stringToChars_text, hs, stringToRunes_runesToString, hsan]
  · rw [List.map_map]
    have : ∀ r ∈ runes, (Int.ofNat ∘ runeToDiffChar) r = id r :=
      fun r hr => (runeToDiffChar_valid r (hv r hr)).1
    rw [List.map_congr_left this, List.map_id]
  · rw [charsToString_text, List.map_map]
    have : ∀ r ∈ runes, (toRune ∘ runeToDiffChar) r = id r :=
      fun r hr => (runeToDiffChar_valid r (hv r hr)).2
    rw [List.map_congr_left this, List.map_id, hs]

/-- Witness of C14: the text `"hé€"`, with codepoints U+0068, U+00E9, U+20AC. -/
theorem C14_text_tokens_roundtrip_witness :
    IsUTF8Of [104, 195, 169, 226, 130, 172] [0x68, 0xE9, 0x20AC] ∧
    ∃ chars, stringToChars [104, 195, 169, 226, 130, 172] false = some chars ∧
      chars.map Int.ofNat = [0x68, 0xE9, 0x20AC] ∧
      charsToString chars false = some [104, 195, 169, 226, 130, 172] :=
  ⟨by unfold IsUTF8Of; decide,
    C14_text_tokens_roundtrip [104, 195, 169, 226, 130, 172] [0x68, 0xE9, 0x20AC]
      (by unfold IsUTF8Of; decide)⟩

/-- C19. For every sequence `seq` of 32-bit tokens,
`stringToChars(charsToString(seq, false), false)` returns a sequence of the
same length whose `k`-th token is `seq[k]` when `seq[k]` is a valid Unicode
scalar value and `0xFFFD` otherwise; so the result is `seq` exactly when every
token of `seq` is a valid scalar value. -/
theorem C19_tokens_text_roundtrip (seq : List DiffChar) (h : ∀ c ∈ seq, isDiffChar c) :
    (charsToString seq false).bind (fun s => stringToChars s false)
      = some (seq.map (fun c => if validScalar c then c else 0xFFFD)) ∧
    (seq.map (fun c => if validScalar c then c else 0xFFFD)).length = seq.length ∧
    ((charsToString seq false).bind (fun s => stringToChars s false) = some seq
      ↔ ∀ c ∈ seq, validScalar c) := by
  have hres : (charsToString seq false).bind (fun s => stringToChars s false)
      = some (seq.map (fun c => if validScalar c then c else 0xFFFD)) := by
    rw [charsToString_text, Option.some_bind, stringToChars_text, stringToRunes_runesToString,
      List.map_map, List.map_map]
    refine congrArg some (List.map_congr_left ?_)
    intro c hc
    exact runeToDiffChar_sanitize_toRune c (h c hc)
  refine ⟨hres, by simp, ?_⟩
  rw [hres, Option.some.injEq]
  constructor
  · intro heq c hc
    obtain ⟨n, hn, hget⟩ := List.getElem_of_mem hc
    have := congrArg (fun l => l[n]?) heq
    simp only [List.getElem?_map, List.getElem?_eq_getElem hn, Option.map_some',
      Option.some.injEq, hget] at this
    by_contra hnot
    rw [if_neg hnot] at this
    exact hnot (by rw [← this]; decide)
  · intro hall
    have : ∀ c ∈ seq, (fun c => if validScalar c then c else 0xFFFD) c = id c :=
      fun c hc => if_pos (hall c hc)
    rw [List.map_congr_left this, List.map_id]

/-- Witness of C19: the tokens `[0x41, 0xD800, 0x110000, 0xFFFFFFFF, 0x20AC]`. -/
theorem C19_tokens_text_roundtrip_witness :
    (∀ c ∈ [0x41, 0xD800, 0x110000, 0xFFFFFFFF, 0x20AC], isDiffChar c) ∧
    ((charsToString [0x41, 0xD800, 0x110000, 0xFFFFFFFF, 0x20AC] false).bind
        (fun s => stringToChars s false)
      = some ([0x41, 0xD800, 0x110000, 0xFFFFFFFF, 0x20AC].map
          (fun c => if validScalar c then c else 0xFFFD)) ∧
    ([0x41, 0xD800, 0x110000, 0xFFFFFFFF, 0x20AC].map
        (fun c => if validScalar c then c else 0xFFFD)).length
      = [0x41, 0xD800, 0x110000, 0xFFFFFFFF, 0x20AC].length ∧
    ((charsToString [0x41, 0xD800, 0x110000, 0xFFFFFFFF, 0x20AC] false).bind
        (fun s => stringToChars s false) = some [0x41, 0xD800, 0x110000, 0xFFFFFFFF, 0x20AC]
      ↔ ∀ c ∈ [0x41, 0xD800, 0x110000, 0xFFFFFFFF, 0x20AC], validScalar c)) :=
  ⟨by decide,
    C19_tokens_text_roundtrip [0x41, 0xD800, 0x110000, 0xFFFFFFFF, 0x20AC] (by decide)⟩

/-! ## Claim C16: `lastIndexOf` at the first or the last byte of a codepoint -/

/-- C16. For every valid UTF-8 haystack `s`, with codepoints `runes`, every
needle `p` and every index `i` that is the offset of the first byte or of the
last byte of a codepoint of `s`, `lastIndexOf(s, p, i)` is the backward search
over the window `s[0:e]`, where `e` is the offset just past that codepoint. In
particular for `s = "héllo world"` (`é` occupying the bytes 1 and 2),
`lastIndexOf(s, p, 1) = lastIndexOf(s, p, 2)` is the last occurrence of `p` in
`"hé"`, and with `p = "llo"` both are `-1`. -/
theorem C16_lastIndexOf_codepoint_edges (runes : List Int) (p : List Nat) (k i : Nat)
    (hv : ∀ r ∈ runes, validRune r) (hk : k < runes.length)
    (hi : i = codepointStart runes k ∨ i + 1 = codepointEnd runes k) :
    (i < (runesToString runes).length ∧
      lastIndexOf (runesToString runes) p (i : Int)
        = some (stringsLastIndex ((runesToString runes).take (codepointEnd runes k)) p) ∧
      lastIndexOf (runesToString runes) p (i : Int)
        = lastIndexOf ((runesToString runes).take (codepointEnd runes k)) p
            (codepointEnd runes k : Int)) ∧
    (lastIndexOf helloAccent p 1 = some (stringsLastIndex [104, 195, 169] p) ∧
      lastIndexOf helloAccent p 2 = some (stringsLastIndex [104, 195, 169] p) ∧
      lastIndexOf helloAccent (ascii "llo") 1 = some (-1) ∧
      lastIndexOf helloAccent (ascii "llo") 2 = some (-1)) := by
  constructor
  · obtain ⟨front, post, n, hn, hs, hstart, hend⟩ := runesToString_split runes k hk hv
    have hpos := length_encodeScalar_pos n
    have hwin : (front ++ encodeScalar n ++ post).take (front.length + (encodeScalar n).length)
        = front ++ encodeScalar n := take_codepoint front (encodeScalar n) post
    have hres : lastIndexOf (front ++ encodeScalar n ++ post) p (i : Int)
        = some (stringsLastIndex (front ++ encodeScalar n) p) := by
      rcases hi with hi | hi
      · rw [hi, hstart]
        exact lastIndexOf_first_byte front post p n hn
      · rw [show i = front.length + (encodeScalar n).length - 1 by omega]
        exact lastIndexOf_last_byte front post p n hn
    rw [hs, hend, hwin]
    refine ⟨?_, hres, ?_⟩
    · simp only [List.length_append]; omega
    · rw [hres, lastIndexOf_whole _ p _ (by simp)]
  · have h1 := lastIndexOf_first_byte (ascii "h") (ascii "llo world") p 0xE9 (by decide)
    have h2 := lastIndexOf_last_byte (ascii "h") (ascii "llo world") p 0xE9 (by decide)
    rw [← helloAccent_eq] at h1 h2
    exact ⟨h1, h2, by decide, by decide⟩

/-- Witness of C16: the haystack `"héllo world"`, the needle `"llo"`, the
codepoint number 1 (`é`) and `i = 2`, its last byte. -/
theorem C16_lastIndexOf_codepoint_edges_witness :
    (∀ r ∈ [0x68, 0xE9, 0x6C, 0x6C, 0x6F, 0x20, 0x77, 0x6F, 0x72, 0x6C, 0x64], validRune r) ∧
    1 < [0x68, 0xE9, 0x6C, 0x6C, 0x6F, 0x20, 0x77, 0x6F, 0x72, 0x6C, (0x64 : Int)].length ∧
    (2 = codepointStart [0x68, 0xE9, 0x6C, 0x6C, 0x6F, 0x20, 0x77, 0x6F, 0x72, 0x6C, 0x64] 1 ∨
      2 + 1 = codepointEnd [0x68, 0xE9, 0x6C, 0x6C, 0x6F, 0x20, 0x77, 0x6F, 0x72, 0x6C, 0x64] 1) ∧
    runesToString [0x68, 0xE9, 0x6C, 0x6C, 0x6F, 0x20, 0x77, 0x6F, 0x72, 0x6C, 0x64]
      = helloAccent ∧
    lastIndexOf helloAccent (ascii "llo") 2 = some (-1) :=
  ⟨by decide, by decide, by decide, by decide,
    (C16_lastIndexOf_codepoint_edges
      [0x68, 0xE9, 0x6C, 0x6C, 0x6F, 0x20, 0x77, 0x6F, 0x72, 0x6C, 0x64] (ascii "llo") 1 2
      (by decide) (by decide) (by decide)).2.2.2.2⟩

end DiffMatchPatch
